import Mathlib

/-
Verification of the minefield core of minesweeper-game (src/minesweeper-game.c).
The C program is embedded shallowly: the bit-packed cell becomes a structure
with plain fields, the stack-allocated cell buffer becomes a list indexed by
x + y * width, the seeded PRNG becomes an explicit stream of draws, and the
process-terminating input parser returns an exit code through Except.
-/

namespace Minesweeper

/-- Status of a cell, mirroring enum Field_Cell_Status (HIDDEN = 0 is the
initial value produced by memset). -/
inductive Status where
  | HIDDEN
  | OPENED
  | FLAGGED
deriving DecidableEq

/-- One cell of the minefield, mirroring struct Field_Cell.  The C source
packs these fields into one byte; mines_near is a 4-bit counter, so its
increments are taken modulo 16 where the source increments it. -/
structure Field_Cell where
  status : Status
  is_mine : Bool
  mines_near : Nat
deriving DecidableEq

/-- The all-zero cell produced by memset: hidden, no mine, zero count. -/
def zeroCell : Field_Cell := ⟨Status.HIDDEN, false, 0⟩

/-- The minefield, mirroring struct Field: the cell at (x, y) lives at
index x + y * width of the list. -/
structure Field where
  width : Nat
  height : Nat
  field : List Field_Cell
deriving DecidableEq

/-- Read the cell at (x, y), as field->field[x + y * field->width]. -/
def Field.get (f : Field) (x y : Nat) : Field_Cell :=
  f.field.getD (x + y * f.width) zeroCell

/-- Write the cell at (x, y). -/
def Field.setCell (f : Field) (x y : Nat) (c : Field_Cell) : Field :=
  { f with field := f.field.set (x + y * f.width) c }

/-- A field is well formed when its buffer has exactly width * height cells,
as allocated by main. -/
def Field.WF (f : Field) : Prop := f.field.length = f.width * f.height

/-- The freshly constructed field of main: width * height zero cells. -/
def Field.mk0 (w h : Nat) : Field := ⟨w, h, List.replicate (w * h) zeroCell⟩

/-- In-bounds predicate for a coordinate pair. -/
def Field.inB (f : Field) (x y : Nat) : Prop := x < f.width ∧ y < f.height

instance (f : Field) (x y : Nat) : Decidable (f.inB x y) := by
  unfold Field.inB; infer_instance

instance (f : Field) : Decidable f.WF := by
  unfold Field.WF; infer_instance

/-- The nine offsets visited by the generation and flood-fill loops of the
source (j outer from -1 to 1, i inner from -1 to 1); the pair is (i, j) and
the offset (0, 0) is included, exactly as in the C loops. -/
def boxOffsets : List (Int × Int) :=
  [(-1, -1), (0, -1), (1, -1), (-1, 0), (0, 0), (1, 0), (-1, 1), (0, 1), (1, 1)]

/-- Increment mines_near (a 4-bit field, hence mod 16) on every in-bounds
cell at offsets l from (x, y): the inner loops of Field_generate. -/
def bumpNear (f : Field) (x y : Nat) : List (Int × Int) → Field
  | [] => f
  | (i, j) :: rest =>
    let xr : Int := (x : Int) + i
    let yr : Int := (y : Int) + j
    let f' :=
      if 0 ≤ xr ∧ 0 ≤ yr ∧ xr.toNat < f.width ∧ yr.toNat < f.height then
        let n := f.get xr.toNat yr.toNat
        f.setCell xr.toNat yr.toNat { n with mines_near := (n.mines_near + 1) % 16 }
      else f
    bumpNear f' x y rest

/-- Field_generate: place mines from a stream of PRNG draws.  Each loop
iteration of the source calls random() twice, giving one (r1, r2) pair; a
draw landing on a mined cell retries with the next pair.  The result is
none when the stream is exhausted before all mines are placed (the C
program would keep calling random()). -/
def Field_generate (f : Field) : Nat → List (Nat × Nat) → Option Field
  | 0, _ => some f
  | _ + 1, [] => none
  | m + 1, (r1, r2) :: draws =>
    let x := r1 % f.width
    let y := r2 % f.height
    let cur := f.get x y
    if cur.is_mine then
      Field_generate f (m + 1) draws
    else
      let f1 := f.setCell x y { cur with is_mine := true }
      Field_generate (bumpNear f1 x y boxOffsets) m draws

/-- The inner neighbor loop of Field_open, abstracted over the recursive
call: for each offset, if the neighbor is inside the grid, recurse on it
with the current field. -/
def openListF (rec : Field → Nat → Nat → Field) :
    Field → Nat → Nat → List (Int × Int) → Field
  | f, _, _, [] => f
  | f, x, y, (i, j) :: rest =>
    let nx : Int := (x : Int) + i
    let ny : Int := (y : Int) + j
    let f' :=
      if 0 ≤ nx ∧ 0 ≤ ny ∧ nx.toNat < f.width ∧ ny.toNat < f.height then
        rec f nx.toNat ny.toNat
      else f
    openListF rec f' x y rest

/-- Field_open with explicit fuel bounding the recursion depth.  Each level
of recursion in the C source opens at least one cell first, so any fuel of
at least (number of non-opened cells + 1) reproduces the source exactly. -/
def openFuel : Nat → Field → Nat → Nat → Field
  | 0, f, _, _ => f
  | fuel + 1, f, x, y =>
    if f.width ≤ x ∨ f.height ≤ y then f
    else if (f.get x y).status = Status.OPENED then f
    else
      let f2 := f.setCell x y { f.get x y with status := Status.OPENED }
      if (f.get x y).mines_near ≠ 0 then f2
      else openListF (fun g a b => openFuel fuel g a b) f2 x y boxOffsets

/-- Field_open: fuel width * height + 1 suffices for every well-formed
field since each recursive level opens a fresh cell. -/
def Field_open (f : Field) (x y : Nat) : Field :=
  openFuel (f.width * f.height + 1) f x y

/-- The scan of Field_isWin, carrying the closed and mines counters. -/
def isWinAux : List Field_Cell → Nat → Nat → Int
  | [], closed, mines => if closed = mines then 1 else 0
  | c :: rest, closed, mines =>
    if c.is_mine ∧ c.status = Status.OPENED then -1
    else
      isWinAux rest
        (if c.status ≠ Status.OPENED then closed + 1 else closed)
        (if c.is_mine then mines + 1 else mines)

/-- Field_isWin: scan the width * height cells of the buffer. -/
def Field_isWin (f : Field) : Int :=
  isWinAux (f.field.take (f.width * f.height)) 0 0

/-- The FLAG branch of the dispatch switch in main: toggle the validated
cell between HIDDEN and FLAGGED, leaving an OPENED cell alone. -/
def applyFlag (f : Field) (x y : Nat) : Field :=
  let cell := f.get x y
  if cell.status = Status.HIDDEN then f.setCell x y { cell with status := Status.FLAGGED }
  else if cell.status = Status.FLAGGED then f.setCell x y { cell with status := Status.HIDDEN }
  else f

/-- Player_Move_Action of the source. -/
inductive Player_Move_Action where
  | FLAG
  | OPEN
deriving DecidableEq

/-- Player_Move of the source: 0-based coordinates that may be negative. -/
structure Player_Move where
  x : Int
  y : Int
  action : Player_Move_Action
deriving DecidableEq

/-- The four coordinate-validation warnings of the main loop, each carrying
the offending coordinate, in the order the source tests them. -/
inductive MoveWarning where
  | xNegative (x : Int)
  | yNegative (y : Int)
  | xTooLarge (x : Int)
  | yTooLarge (y : Int)
deriving DecidableEq

/-- One iteration of the dispatch part of the main loop: validate the
parsed move, and either emit a warning leaving the field alone, or apply
the OPEN or FLAG action. -/
def mainStep (f : Field) (m : Player_Move) : Field × Option MoveWarning :=
  if m.x < 0 then (f, some (MoveWarning.xNegative m.x))
  else if m.y < 0 then (f, some (MoveWarning.yNegative m.y))
  else if (f.width : Int) ≤ m.x then (f, some (MoveWarning.xTooLarge m.x))
  else if (f.height : Int) ≤ m.y then (f, some (MoveWarning.yTooLarge m.y))
  else
    match m.action with
    | Player_Move_Action.OPEN => (Field_open f m.x.toNat m.y.toNat, none)
    | Player_Move_Action.FLAG => (applyFlag f m.x.toNat m.y.toNat, none)

/-- The first loop of Player_process: discard bytes until a '#' or '?'
marker, returning the marker and the remaining stream, or none at end of
input. -/
def skipToMarker : List Char → Option (Char × List Char)
  | [] => none
  | c :: rest =>
    if c = '#' ∨ c = '?' then some (c, rest) else skipToMarker rest

/-- A digit-accumulating loop of Player_process: consume bytes until the
stop byte, accumulating decimal digits and silently ignoring every other
byte; the boolean records whether the stop byte was found before end of
input. -/
def readNum (stop : Char) : Nat → List Char → Nat × List Char × Bool
  | acc, [] => (acc, [], false)
  | acc, c :: rest =>
    if c = stop then (acc, rest, true)
    else readNum stop (if c.isDigit then acc * 10 + (c.toNat - '0'.toNat) else acc) rest

/-- Player_process: decode one move from the input stream.  An error value
models the exit() calls of the source: code 1 when no marker is ever found
and code 2 when end of input arrives before the ';' terminator (errno is 0
for plain end of file). -/
def Player_process (input : List Char) : Except Nat Player_Move :=
  match skipToMarker input with
  | none => Except.error 1
  | some (m, rest) =>
    let act := if m = '#' then Player_Move_Action.OPEN else Player_Move_Action.FLAG
    let rx := readNum 'x' 0 rest
    let ry := readNum ';' 0 rx.2.1
    if ry.2.2 then Except.ok ⟨(rx.1 : Int) - 1, (ry.1 : Int) - 1, act⟩
    else Except.error 2

/-! ### List index helpers -/

theorem getD_set_self {α : Type} (l : List α) (i : Nat) (a d : α) (h : i < l.length) :
    (l.set i a).getD i d = a := by
  induction l generalizing i with
  | nil => simp at h
  | cons c t ih =>
    cases i with
    | zero => simp [List.getD_cons_zero]
    | succ n =>
      simp only [List.set, List.getD_cons_succ]
      exact ih n (by simpa using h)

theorem getD_set_ne {α : Type} (l : List α) (i j : Nat) (a d : α) (h : i ≠ j) :
    (l.set i a).getD j d = l.getD j d := by
  induction l generalizing i j with
  | nil => simp
  | cons c t ih =>
    cases i with
    | zero =>
      cases j with
      | zero => exact absurd rfl h
      | succ n => simp [List.getD_cons_succ]
    | succ m =>
      cases j with
      | zero => simp [List.getD_cons_zero]
      | succ n =>
        simp only [List.set, List.getD_cons_succ]
        exact ih m n (by omega)

theorem getD_replicate {α : Type} (n k : Nat) (a : α) :
    (List.replicate n a).getD k a = a := by
  induction n generalizing k with
  | zero => simp
  | succ m ih =>
    cases k with
    | zero => simp [List.replicate, List.getD_cons_zero]
    | succ j => simpa [List.replicate, List.getD_cons_succ] using ih j

/-- Row-major indexing is injective on in-bounds coordinates. -/
theorem idx_inj {w a b x y : Nat} (ha : a < w) (hx : x < w)
    (h : a + b * w = x + y * w) : a = x ∧ b = y := by
  have hmod : (a + b * w) % w = (x + y * w) % w := by rw [h]
  rw [Nat.add_mul_mod_self_right, Nat.add_mul_mod_self_right,
    Nat.mod_eq_of_lt ha, Nat.mod_eq_of_lt hx] at hmod
  subst hmod
  refine ⟨rfl, ?_⟩
  have hbw : b * w = y * w := by omega
  exact Nat.eq_of_mul_eq_mul_right (by omega) hbw

/-- An in-bounds coordinate indexes inside a well-formed buffer. -/
theorem inB_idx_lt {f : Field} {x y : Nat} (hWF : f.WF) (hx : x < f.width) (hy : y < f.height) :
    x + y * f.width < f.field.length := by
  rw [hWF]
  have h1 : x + y * f.width < (y + 1) * f.width := by
    rw [Nat.succ_mul]; omega
  have h2 : (y + 1) * f.width ≤ f.height * f.width := Nat.mul_le_mul_right _ (by omega)
  calc x + y * f.width < (y + 1) * f.width := h1
    _ ≤ f.height * f.width := h2
    _ = f.width * f.height := Nat.mul_comm _ _

theorem get_setCell_self {f : Field} {x y : Nat} (c : Field_Cell)
    (hWF : f.WF) (hx : x < f.width) (hy : y < f.height) :
    (f.setCell x y c).get x y = c := by
  unfold Field.setCell Field.get
  exact getD_set_self _ _ _ _ (inB_idx_lt hWF hx hy)

theorem get_setCell_ne {f : Field} {x y a b : Nat} (c : Field_Cell)
    (hx : x < f.width) (ha : a < f.width) (hne : ¬(a = x ∧ b = y)) :
    (f.setCell x y c).get a b = f.get a b := by
  unfold Field.setCell Field.get
  refine getD_set_ne _ _ _ _ _ (fun hidx => hne ?_)
  have := idx_inj ha hx hidx.symm
  exact ⟨this.1, this.2⟩

theorem setCell_width (f : Field) (x y : Nat) (c : Field_Cell) :
    (f.setCell x y c).width = f.width := rfl

theorem setCell_height (f : Field) (x y : Nat) (c : Field_Cell) :
    (f.setCell x y c).height = f.height := rfl

theorem setCell_length (f : Field) (x y : Nat) (c : Field_Cell) :
    (f.setCell x y c).field.length = f.field.length := by
  unfold Field.setCell
  simp

theorem setCell_WF {f : Field} (x y : Nat) (c : Field_Cell) (hWF : f.WF) :
    (f.setCell x y c).WF := by
  unfold Field.WF at hWF ⊢
  rw [setCell_length, setCell_width, setCell_height]
  exact hWF

/-! ### C7: Field_open is a no-op out of bounds or on an opened cell -/

/-- C7: Open(x,y) leaves the minefield completely unchanged whenever (x,y)
is out of bounds (x at or beyond the width, or y at or beyond the height)
or the cell there already has status Opened; neither case is an error. -/
theorem c7_open_noop (f : Field) (x y : Nat)
    (h : f.width ≤ x ∨ f.height ≤ y ∨ (f.get x y).status = Status.OPENED) :
    Field_open f x y = f := by
  unfold Field_open
  rcases h with h | h | h
  · rw [openFuel]
    simp [h]
  · rw [openFuel]
    simp [h]
  · rw [openFuel]
    simp [h]

theorem c7_open_noop_witness :
    (Field.mk0 2 2).width ≤ 5 ∧ Field_open (Field.mk0 2 2) 5 0 = Field.mk0 2 2 :=
  ⟨by decide, c7_open_noop (Field.mk0 2 2) 5 0 (Or.inl (by decide))⟩

/-! ### C6: the Flag action toggles Hidden and Flagged only -/

/-- C6: applying the Flag action on an in-bounds cell turns Hidden into
Flagged, Flagged into Hidden, leaves an Opened cell unchanged, never
changes is_mine or mines_near, and modifies no other cell. -/
theorem c6_flag_toggle (f : Field) (x y : Nat)
    (hWF : f.WF) (hx : x < f.width) (hy : y < f.height) :
    ((applyFlag f x y).get x y).status =
      (match (f.get x y).status with
       | Status.HIDDEN => Status.FLAGGED
       | Status.FLAGGED => Status.HIDDEN
       | Status.OPENED => Status.OPENED)
    ∧ ((applyFlag f x y).get x y).is_mine = (f.get x y).is_mine
    ∧ ((applyFlag f x y).get x y).mines_near = (f.get x y).mines_near
    ∧ (∀ a b, a < f.width → ¬(a = x ∧ b = y) → (applyFlag f x y).get a b = f.get a b)
    ∧ (applyFlag f x y).width = f.width
    ∧ (applyFlag f x y).height = f.height := by
  have hframe : ∀ a b, a < f.width → ¬(a = x ∧ b = y) →
      (applyFlag f x y).get a b = f.get a b := by
    intro a b ha hne
    unfold applyFlag
    rcases hs : (f.get x y).status with _ | _ | _ <;>
      simp [hs, get_setCell_ne _ hx ha hne]
  refine ⟨?_, ?_, ?_, fun a b ha hne => hframe a b ha hne, ?_, ?_⟩ <;>
  · unfold applyFlag
    rcases hs : (f.get x y).status with _ | _ | _ <;>
      simp [hs, get_setCell_self _ hWF hx hy, setCell_width, setCell_height]

theorem c6_flag_toggle_witness :
    (Field.mk0 2 2).WF ∧
    ((applyFlag (Field.mk0 2 2) 0 1).get 0 1).status =
      (match ((Field.mk0 2 2).get 0 1).status with
       | Status.HIDDEN => Status.FLAGGED
       | Status.FLAGGED => Status.HIDDEN
       | Status.OPENED => Status.OPENED) :=
  ⟨by decide, (c6_flag_toggle (Field.mk0 2 2) 0 1 (by decide) (by decide) (by decide)).1⟩

/-! ### C8: the game loop discards out-of-bounds moves -/

/-- C8: a parsed move whose coordinates violate the bounds is discarded
without touching the field; the reported warning names the violated bound
exactly as the four warnx branches of main do. -/
theorem c8_invalid_move_discarded (f : Field) (m : Player_Move)
    (h : m.x < 0 ∨ m.y < 0 ∨ (f.width : Int) ≤ m.x ∨ (f.height : Int) ≤ m.y) :
    (mainStep f m).1 = f
    ∧ (m.x < 0 → (mainStep f m).2 = some (MoveWarning.xNegative m.x))
    ∧ (0 ≤ m.x → m.y < 0 → (mainStep f m).2 = some (MoveWarning.yNegative m.y))
    ∧ (0 ≤ m.x → 0 ≤ m.y → (f.width : Int) ≤ m.x →
        (mainStep f m).2 = some (MoveWarning.xTooLarge m.x))
    ∧ (0 ≤ m.x → 0 ≤ m.y → m.x < (f.width : Int) → (f.height : Int) ≤ m.y →
        (mainStep f m).2 = some (MoveWarning.yTooLarge m.y)) := by
  unfold mainStep
  split_ifs with h1 h2 h3 h4
  · exact ⟨rfl, fun _ => rfl, fun hx _ => absurd h1 (by omega),
      fun hx _ _ => absurd h1 (by omega), fun hx _ _ _ => absurd h1 (by omega)⟩
  · exact ⟨rfl, fun hx => absurd hx (by omega), fun _ _ => rfl,
      fun _ hy _ => absurd h2 (by omega), fun _ hy _ _ => absurd h2 (by omega)⟩
  · exact ⟨rfl, fun hx => absurd hx (by omega), fun _ hy => absurd hy (by omega),
      fun _ _ _ => rfl, fun _ _ hxw _ => absurd h3 (by omega)⟩
  · exact ⟨rfl, fun hx => absurd hx (by omega), fun _ hy => absurd hy (by omega),
      fun _ _ hw => absurd hw (by omega), fun _ _ _ _ => rfl⟩
  · exact absurd h (by omega)

theorem c8_invalid_move_discarded_witness :
    ((-1 : Int) < 0 ∨ (0 : Int) < 0 ∨ ((Field.mk0 2 2).width : Int) ≤ -1 ∨
      ((Field.mk0 2 2).height : Int) ≤ 0)
    ∧ (mainStep (Field.mk0 2 2) ⟨-1, 0, Player_Move_Action.OPEN⟩).1 = Field.mk0 2 2 :=
  ⟨Or.inl (by decide),
    (c8_invalid_move_discarded (Field.mk0 2 2) ⟨-1, 0, Player_Move_Action.OPEN⟩
      (Or.inl (by decide))).1⟩

/-! ### C4: the move parser -/

/-- C4: the parser skips bytes before the marker, and the concrete inputs
of the claim parse to the stated moves; junk between digits is ignored and
an accumulated value of 0 yields coordinate -1. -/
theorem c4_parse_examples :
    (∀ c s, c ≠ '#' → c ≠ '?' → Player_process (c :: s) = Player_process s)
    ∧ Player_process "#4x2;".toList = Except.ok ⟨3, 1, Player_Move_Action.OPEN⟩
    ∧ Player_process "?1x1;".toList = Except.ok ⟨0, 0, Player_Move_Action.FLAG⟩
    ∧ Player_process "#4abcx1;".toList = Player_process "#4x1;".toList
    ∧ Player_process "#x;".toList = Except.ok ⟨-1, -1, Player_Move_Action.OPEN⟩ := by
  refine ⟨?_, by rfl, by rfl, by rfl, by rfl⟩
  intro c s hc hq
  have hskip : skipToMarker (c :: s) = skipToMarker s := by
    conv_lhs => rw [skipToMarker]
    simp [hc, hq]
  unfold Player_process
  rw [hskip]

theorem c4_parse_examples_witness :
    ('a' : Char) ≠ '#' ∧ ('a' : Char) ≠ '?' ∧
    Player_process ('a' :: "#4x2;".toList) = Player_process "#4x2;".toList :=
  ⟨by decide, by decide, c4_parse_examples.1 'a' "#4x2;".toList (by decide) (by decide)⟩

/-! ### C9: end of input is fatal -/

/-- True on bytes that are not move markers. -/
def noMarkerByte (c : Char) : Bool := !(c == '#' || c == '?')

/-- The stream remaining after the first marker byte. -/
def restAfterMarker (input : List Char) : List Char :=
  (input.dropWhile noMarkerByte).drop 1

/-- The stream remaining after the x coordinate's terminating 'x'. -/
def restAfterX (input : List Char) : List Char :=
  ((restAfterMarker input).dropWhile (fun c => c != 'x')).drop 1

theorem skipToMarker_eq_none (l : List Char) :
    skipToMarker l = none ↔ ∀ c ∈ l, c ≠ '#' ∧ c ≠ '?' := by
  induction l with
  | nil => simp [skipToMarker]
  | cons c rest ih =>
    unfold skipToMarker
    by_cases hc : c = '#' ∨ c = '?'
    · simp only [if_pos hc]
      constructor
      · intro h; exact absurd h (by simp)
      · intro h
        have hcc := h c (by simp)
        rcases hc with hc | hc
        · exact absurd hc hcc.1
        · exact absurd hc hcc.2
    · simp only [if_neg hc]
      rw [ih]
      push_neg at hc
      constructor
      · intro h
        intro d hd
        rcases List.mem_cons.mp hd with rfl | hd
        · exact ⟨hc.1, hc.2⟩
        · exact h d hd
      · intro h d hd
        exact h d (List.mem_cons_of_mem _ hd)

theorem skipToMarker_eq_some (l : List Char) (m : Char) (rest : List Char)
    (h : skipToMarker l = some (m, rest)) :
    (∃ c ∈ l, c = '#' ∨ c = '?') ∧ rest = (l.dropWhile noMarkerByte).drop 1 := by
  induction l with
  | nil => simp [skipToMarker] at h
  | cons c tl ih =>
    unfold skipToMarker at h
    by_cases hc : c = '#' ∨ c = '?'
    · rw [if_pos hc] at h
      injection h with h'
      injection h' with h1 h2
      refine ⟨⟨c, by simp, hc⟩, ?_⟩
      have : noMarkerByte c = false := by
        rcases hc with rfl | rfl <;> rfl
      simp [List.dropWhile, this, h2.symm]
    · rw [if_neg hc] at h
      obtain ⟨⟨d, hd, hdm⟩, hrest⟩ := ih h
      push_neg at hc
      have : noMarkerByte c = true := by
        simp [noMarkerByte, hc.1, hc.2]
      exact ⟨⟨d, List.mem_cons_of_mem _ hd, hdm⟩, by simp [List.dropWhile, this, hrest]⟩

theorem readNum_found (stop : Char) (acc : Nat) (l : List Char) :
    (readNum stop acc l).2.2 = true ↔ stop ∈ l := by
  induction l generalizing acc with
  | nil => simp [readNum]
  | cons c rest ih =>
    unfold readNum
    by_cases hc : c = stop
    · simp [hc]
    · rw [if_neg hc]
      rw [ih]
      simp [List.mem_cons, Ne.symm hc, hc]

theorem readNum_rest (stop : Char) (acc : Nat) (l : List Char) :
    (readNum stop acc l).2.1 = (l.dropWhile (fun c => c != stop)).drop 1 := by
  induction l generalizing acc with
  | nil => simp [readNum]
  | cons c rest ih =>
    unfold readNum
    by_cases hc : c = stop
    · subst hc
      simp [List.dropWhile]
    · rw [if_neg hc]
      rw [ih]
      have : (c != stop) = true := by simp [hc]
      simp [List.dropWhile, this]

/-- C9: the parser's only outcomes are a fully parsed move or a fatal
non-zero exit code; the exit happens exactly when no marker byte exists in
the input or the ';' terminator is never reached after the marker and the
'x' separator are consumed. -/
theorem c9_eof_fatal (input : List Char) :
    (Player_process input = Except.error 1 ↔ ∀ c ∈ input, c ≠ '#' ∧ c ≠ '?')
    ∧ (Player_process input = Except.error 2 ↔
        (∃ c ∈ input, c = '#' ∨ c = '?') ∧ ';' ∉ restAfterX input)
    ∧ (∀ e, Player_process input = Except.error e → e ≠ 0)
    ∧ (∀ mv, Player_process input = Except.ok mv →
        (∃ c ∈ input, c = '#' ∨ c = '?') ∧ ';' ∈ restAfterX input) := by
  unfold Player_process
  cases hsk : skipToMarker input with
  | none =>
    have hall := (skipToMarker_eq_none input).mp hsk
    refine ⟨by simpa using hall, ?_, ?_, ?_⟩
    · simp only [Except.error.injEq]
      constructor
      · intro h; omega
      · rintro ⟨⟨c, hc, hcm⟩, -⟩
        rcases hcm with rfl | rfl
        · exact absurd (hall _ hc).1 (by simp)
        · exact absurd (hall _ hc).2 (by simp)
    · intro e he
      injection he with he'
      omega
    · intro mv hmv
      exact absurd hmv (by simp)
  | some p =>
    obtain ⟨m, rest⟩ := p
    obtain ⟨hex, hrest⟩ := skipToMarker_eq_some input m rest hsk
    have hnotall : ¬∀ c ∈ input, c ≠ '#' ∧ c ≠ '?' := by
      intro hall
      obtain ⟨c, hc, hcm⟩ := hex
      have hcc := hall c hc
      rcases hcm with rfl | rfl
      · exact absurd rfl hcc.1
      · exact absurd rfl hcc.2
    have hrx : (readNum 'x' 0 rest).2.1 = restAfterX input := by
      rw [readNum_rest, restAfterX, restAfterMarker, hrest]
    dsimp only
    rw [hrx]
    have hfound := readNum_found ';' 0 (restAfterX input)
    by_cases hok : (readNum ';' 0 (restAfterX input)).2.2 = true
    · have hin : ';' ∈ restAfterX input := hfound.mp hok
      rw [if_pos hok]
      refine ⟨?_, ?_, ?_, ?_⟩
      · constructor
        · intro h; exact absurd h (by simp)
        · intro hall; exact absurd hall hnotall
      · constructor
        · intro h; exact absurd h (by simp)
        · rintro ⟨-, habs⟩; exact absurd hin habs
      · intro e he; exact absurd he (by simp)
      · intro mv hmv; exact ⟨hex, hin⟩
    · have hnin : ';' ∉ restAfterX input := fun hin => hok (hfound.mpr hin)
      rw [if_neg hok]
      refine ⟨?_, ?_, ?_, ?_⟩
      · constructor
        · intro h
          injection h with h'
          omega
        · intro hall; exact absurd hall hnotall
      · exact ⟨fun _ => ⟨hex, hnin⟩, fun _ => rfl⟩
      · intro e he
        injection he with he'
        omega
      · intro mv hmv
        exact absurd hmv (by simp)

theorem c9_eof_fatal_witness :
    (1 : Nat) ≠ 0 ∧ Player_process "ab".toList = Except.error 1 :=
  ⟨(c9_eof_fatal "ab".toList).2.2.1 1 (by rfl),
    (c9_eof_fatal "ab".toList).1.mpr (by decide)⟩

/-! ### C2: the win/loss scan -/

/-- Number of cells whose status is not Opened. -/
def countNotOpened (l : List Field_Cell) : Nat :=
  l.countP (fun c => decide (c.status ≠ Status.OPENED))

/-- Number of cells carrying a mine. -/
def countMines (l : List Field_Cell) : Nat :=
  l.countP (fun c => c.is_mine)

theorem countP_le_countP {α : Type} {l : List α} {p q : α → Bool}
    (h : ∀ a ∈ l, p a = true → q a = true) : l.countP p ≤ l.countP q := by
  induction l with
  | nil => simp
  | cons c rest ih =>
    rw [List.countP_cons, List.countP_cons]
    have hrest := ih (fun a ha => h a (List.mem_cons_of_mem _ ha))
    by_cases hp : p c = true
    · have hq := h c (by simp) hp
      simp [hp, hq]
      omega
    · simp only [Bool.not_eq_true] at hp
      simp [hp]
      omega

theorem countNotOpened_cons (c : Field_Cell) (rest : List Field_Cell) :
    countNotOpened (c :: rest) =
      countNotOpened rest + (if c.status = Status.OPENED then 0 else 1) := by
  unfold countNotOpened
  rw [List.countP_cons]
  by_cases h : c.status = Status.OPENED <;> simp [h]

theorem countMines_cons (c : Field_Cell) (rest : List Field_Cell) :
    countMines (c :: rest) = countMines rest + (if c.is_mine then 1 else 0) := by
  unfold countMines
  rw [List.countP_cons]

theorem isWinAux_eq_neg_one (l : List Field_Cell) (closed mines : Nat) :
    isWinAux l closed mines = -1 ↔ ∃ c ∈ l, c.is_mine ∧ c.status = Status.OPENED := by
  induction l generalizing closed mines with
  | nil =>
    simp only [isWinAux, List.not_mem_nil]
    constructor
    · intro h
      split at h <;> omega
    · rintro ⟨c, h, -⟩
      exact absurd h (by simp)
  | cons c rest ih =>
    unfold isWinAux
    by_cases hc : c.is_mine ∧ c.status = Status.OPENED
    · rw [if_pos hc]
      simp only [List.mem_cons]
      exact ⟨fun _ => ⟨c, Or.inl rfl, hc⟩, fun _ => trivial⟩
    · rw [if_neg hc, ih]
      simp only [List.mem_cons]
      constructor
      · rintro ⟨d, hd, hdm⟩
        exact ⟨d, Or.inr hd, hdm⟩
      · rintro ⟨d, hd | hd, hdm⟩
        · exact absurd (hd ▸ hdm) hc
        · exact ⟨d, hd, hdm⟩

theorem isWinAux_eq_one (l : List Field_Cell) (closed mines : Nat) :
    isWinAux l closed mines = 1 ↔
      (¬∃ c ∈ l, c.is_mine ∧ c.status = Status.OPENED) ∧
      closed + countNotOpened l = mines + countMines l := by
  induction l generalizing closed mines with
  | nil =>
    simp only [isWinAux, countNotOpened, countMines, List.countP_nil]
    constructor
    · intro h
      refine ⟨by rintro ⟨c, hc, -⟩; simp at hc, ?_⟩
      split at h <;> omega
    · rintro ⟨-, h⟩
      rw [if_pos (by omega)]
  | cons c rest ih =>
    unfold isWinAux
    by_cases hc : c.is_mine ∧ c.status = Status.OPENED
    · rw [if_pos hc]
      constructor
      · intro h; omega
      · rintro ⟨habs, -⟩
        exact absurd ⟨c, by simp, hc⟩ habs
    · rw [if_neg hc, ih, countNotOpened_cons, countMines_cons]
      have hmemsplit : (∃ d ∈ c :: rest, d.is_mine ∧ d.status = Status.OPENED) ↔
          (∃ d ∈ rest, d.is_mine ∧ d.status = Status.OPENED) := by
        constructor
        · rintro ⟨d, hd, hdm⟩
          rcases List.mem_cons.mp hd with rfl | hd
          · exact absurd hdm hc
          · exact ⟨d, hd, hdm⟩
        · rintro ⟨d, hd, hdm⟩
          exact ⟨d, List.mem_cons_of_mem _ hd, hdm⟩
      rw [hmemsplit]
      by_cases hop : c.status = Status.OPENED <;> by_cases hm : c.is_mine <;>
        simp only [hop, hm, if_pos, if_neg, ite_true, ite_false] <;>
        constructor <;> rintro ⟨h1, h2⟩ <;>
        refine ⟨h1, ?_⟩ <;>
        simp_all <;> omega

theorem isWinAux_cases (l : List Field_Cell) (closed mines : Nat) :
    isWinAux l closed mines = -1 ∨ isWinAux l closed mines = 0 ∨
      isWinAux l closed mines = 1 := by
  induction l generalizing closed mines with
  | nil =>
    simp only [isWinAux]
    split <;> omega
  | cons c rest ih =>
    unfold isWinAux
    split
    · exact Or.inl rfl
    · exact ih _ _

theorem counts_eq_iff (l : List Field_Cell)
    (h : ∀ c ∈ l, c.is_mine → c.status ≠ Status.OPENED) :
    countNotOpened l = countMines l ↔
      ∀ c ∈ l, c.status ≠ Status.OPENED → c.is_mine := by
  induction l with
  | nil => simp [countNotOpened, countMines]
  | cons c rest ih =>
    have hrest := ih (fun d hd => h d (List.mem_cons_of_mem _ hd))
    have hmono : countMines rest ≤ countNotOpened rest := by
      unfold countMines countNotOpened
      refine countP_le_countP (fun d hd hm => ?_)
      simpa using h d (List.mem_cons_of_mem _ hd) (by simpa using hm)
    rw [countNotOpened_cons, countMines_cons]
    by_cases hmine : c.is_mine
    · have hno : c.status ≠ Status.OPENED := h c (by simp) hmine
      rw [if_neg hno, if_pos hmine]
      constructor
      · intro harith d hd hdno
        rcases List.mem_cons.mp hd with rfl | hd
        · exact hmine
        · exact (hrest.mp (by omega)) d hd hdno
      · intro hall
        have := hrest.mpr (fun d hd hdno => hall d (List.mem_cons_of_mem _ hd) hdno)
        omega
    · by_cases hop : c.status = Status.OPENED
      · rw [if_pos hop, if_neg hmine]
        constructor
        · intro harith d hd hdno
          rcases List.mem_cons.mp hd with rfl | hd
          · exact absurd hop hdno
          · exact (hrest.mp (by omega)) d hd hdno
        · intro hall
          have := hrest.mpr (fun d hd hdno => hall d (List.mem_cons_of_mem _ hd) hdno)
          omega
      · rw [if_neg hop, if_neg hmine]
        constructor
        · intro harith
          exact absurd harith (by omega)
        · intro hall
          exact absurd (hall c (by simp) hop) (by simpa using hmine)

/-- C2: Field_isWin returns -1 (Lost) exactly when some mine is Opened,
returns 1 (Won) exactly when no mine is Opened and the number of
non-Opened cells equals the number of mines (equivalently, every
non-Opened cell is a mine), and 0 (InProgress) otherwise. -/
theorem c2_isWin (f : Field) (hWF : f.WF) :
    (Field_isWin f = -1 ↔ ∃ c ∈ f.field, c.is_mine ∧ c.status = Status.OPENED)
    ∧ (Field_isWin f = 1 ↔
        (¬∃ c ∈ f.field, c.is_mine ∧ c.status = Status.OPENED) ∧
        countNotOpened f.field = countMines f.field)
    ∧ ((¬∃ c ∈ f.field, c.is_mine ∧ c.status = Status.OPENED) →
        (countNotOpened f.field = countMines f.field ↔
          ∀ c ∈ f.field, c.status ≠ Status.OPENED → c.is_mine))
    ∧ (Field_isWin f = 0 ↔ Field_isWin f ≠ -1 ∧ Field_isWin f ≠ 1) := by
  have htake : f.field.take (f.width * f.height) = f.field := by
    rw [← hWF]
    exact List.take_length f.field
  unfold Field_isWin
  rw [htake]
  refine ⟨by simpa using isWinAux_eq_neg_one f.field 0 0,
    by simpa using isWinAux_eq_one f.field 0 0, ?_, ?_⟩
  · intro hno
    refine counts_eq_iff f.field (fun c hc hm hop => hno ⟨c, hc, hm, hop⟩)
  · rcases isWinAux_cases f.field 0 0 with h | h | h <;> rw [h] <;> simp

theorem c2_isWin_witness :
    (Field.mk0 1 1).WF ∧
    (Field_isWin (Field.mk0 1 1) = 0 ↔
      Field_isWin (Field.mk0 1 1) ≠ -1 ∧ Field_isWin (Field.mk0 1 1) ≠ 1) :=
  ⟨by decide, (c2_isWin (Field.mk0 1 1) (by decide)).2.2.2⟩

/-! ### Generation: adjacency counts -/

/-- True when the cell at offset p from (x, y) is inside the grid and
carries a mine. -/
def mineAt (f : Field) (x y : Nat) (p : Int × Int) : Bool :=
  decide (0 ≤ (x : Int) + p.1 ∧ 0 ≤ (y : Int) + p.2 ∧
    ((x : Int) + p.1).toNat < f.width ∧ ((y : Int) + p.2).toNat < f.height ∧
    (f.get ((x : Int) + p.1).toNat ((y : Int) + p.2).toNat).is_mine = true)

/-- Number of mines in the 3-by-3 box centred at (x, y), the cell itself
included: this is what the increments of Field_generate accumulate. -/
def boxCount (f : Field) (x y : Nat) : Nat := boxOffsets.countP (mineAt f x y)

/-- The eight proper Moore-neighbor offsets, the cell itself excluded. -/
def nbrOffsets : List (Int × Int) :=
  [(-1, -1), (0, -1), (1, -1), (-1, 0), (1, 0), (-1, 1), (0, 1), (1, 1)]

/-- Number of mines among the up-to-8 Moore neighbors of (x, y), the cell
itself excluded: the count the specification describes for mines_near. -/
def specNeighborMines (f : Field) (x y : Nat) : Nat := nbrOffsets.countP (mineAt f x y)

theorem boxCount_split (f : Field) (x y : Nat) (hx : x < f.width) (hy : y < f.height) :
    boxCount f x y = specNeighborMines f x y + (if (f.get x y).is_mine then 1 else 0) := by
  have hperm : boxOffsets.Perm ((0, 0) :: nbrOffsets) := by decide
  unfold boxCount specNeighborMines
  rw [hperm.countP_eq, List.countP_cons]
  congr 1
  by_cases hm : (f.get x y).is_mine <;> simp [mineAt, hx, hy, hm]

theorem boxCount_le (f : Field) (x y : Nat) : boxCount f x y ≤ 9 := by
  have h := List.countP_le_length (l := boxOffsets) (p := mineAt f x y)
  simpa [boxOffsets] using h

theorem countP_ext {α : Type} {l : List α} {p q : α → Bool}
    (h : ∀ a ∈ l, p a = q a) : l.countP p = l.countP q := by
  induction l with
  | nil => simp
  | cons c rest ih =>
    rw [List.countP_cons, List.countP_cons, h c (by simp),
      ih (fun a ha => h a (List.mem_cons_of_mem _ ha))]

theorem countP_add_of {α : Type} {l : List α} {p1 p0 t : α → Bool}
    (h : ∀ a ∈ l, (t a = true → p1 a = true ∧ p0 a = false) ∧
      (t a = false → p1 a = p0 a)) :
    l.countP p1 = l.countP p0 + l.countP t := by
  induction l with
  | nil => simp
  | cons c rest ih =>
    rw [List.countP_cons, List.countP_cons, List.countP_cons]
    have hrest := ih (fun a ha => h a (List.mem_cons_of_mem _ ha))
    cases ht : t c with
    | true =>
      obtain ⟨h1, h0⟩ := (h c (by simp)).1 ht
      rw [hrest]
      simp [h1, h0, ht]
      omega
    | false =>
      have h10 := (h c (by simp)).2 ht
      rw [h10, hrest]
      cases hv : p0 c <;> simp [hv, ht] <;> omega

theorem countP_unique {α : Type} {l : List α} {p : α → Bool}
    (hnd : l.Nodup)
    (huniq : ∀ a ∈ l, ∀ b ∈ l, p a = true → p b = true → a = b) :
    l.countP p = if ∃ a ∈ l, p a = true then 1 else 0 := by
  induction l with
  | nil => simp
  | cons c rest ih =>
    rw [List.countP_cons]
    by_cases hc : p c = true
    · have hz : rest.countP p = 0 := by
        rw [List.countP_eq_zero]
        intro a ha hpa
        have hac : a = c := huniq a (List.mem_cons_of_mem _ ha) c (by simp) hpa hc
        subst hac
        exact (List.nodup_cons.mp hnd).1 ha
      have hex : ∃ a ∈ c :: rest, p a = true := ⟨c, by simp, hc⟩
      rw [hz, if_pos hex]
      simp [hc]
    · have hrec := ih (List.nodup_cons.mp hnd).2
        (fun a ha b hb => huniq a (List.mem_cons_of_mem _ ha) b (List.mem_cons_of_mem _ hb))
      rw [hrec]
      have hcf : p c = false := by simpa using hc
      by_cases hex : ∃ a ∈ rest, p a = true
      · have hex2 : ∃ a ∈ c :: rest, p a = true := by
          obtain ⟨a, ha, hpa⟩ := hex
          exact ⟨a, List.mem_cons_of_mem _ ha, hpa⟩
        rw [if_pos hex, if_pos hex2]
        simp [hcf]
      · have hex2 : ¬∃ a ∈ c :: rest, p a = true := by
          rintro ⟨a, ha, hpa⟩
          rcases List.mem_cons.mp ha with rfl | ha
          · exact hc hpa
          · exact hex ⟨a, ha, hpa⟩
        rw [if_neg hex, if_neg hex2]
        simp [hcf]

/-! ### The bumpNear characterization -/

theorem bumpNear_spec (l : List (Int × Int)) (hnd : l.Nodup) :
    ∀ (f : Field) (x y : Nat), f.WF →
    (bumpNear f x y l).width = f.width ∧
    (bumpNear f x y l).height = f.height ∧
    (bumpNear f x y l).field.length = f.field.length ∧
    (∀ a b, a < f.width → b < f.height →
      ((bumpNear f x y l).get a b).status = (f.get a b).status ∧
      ((bumpNear f x y l).get a b).is_mine = (f.get a b).is_mine ∧
      ((bumpNear f x y l).get a b).mines_near =
        (if ∃ p ∈ l, (a : Int) = (x : Int) + p.1 ∧ (b : Int) = (y : Int) + p.2
         then ((f.get a b).mines_near + 1) % 16
         else (f.get a b).mines_near)) := by
  induction l with
  | nil =>
    intro f x y hWF
    simp [bumpNear]
  | cons p rest ih =>
    obtain ⟨i, j⟩ := p
    intro f x y hWF
    rw [List.nodup_cons] at hnd
    simp only [bumpNear]
    by_cases hg : 0 ≤ (x : Int) + i ∧ 0 ≤ (y : Int) + j ∧
        ((x : Int) + i).toNat < f.width ∧ ((y : Int) + j).toNat < f.height
    · rw [if_pos hg]
      set n := f.get ((x : Int) + i).toNat ((y : Int) + j).toNat with hn
      set fs := f.setCell ((x : Int) + i).toNat ((y : Int) + j).toNat
        { n with mines_near := (n.mines_near + 1) % 16 } with hfs
      have hfsW : fs.width = f.width := rfl
      have hfsH : fs.height = f.height := rfl
      have hfsL : fs.field.length = f.field.length := setCell_length f _ _ _
      have hfsWF : fs.WF := setCell_WF _ _ _ hWF
      obtain ⟨hw, hh, hl, hpt⟩ := ih hnd.2 fs x y hfsWF
      refine ⟨by rw [hw, hfsW], by rw [hh, hfsH], by rw [hl, hfsL], ?_⟩
      intro a b ha hb
      have hpt' := hpt a b (by rw [hfsW]; exact ha) (by rw [hfsH]; exact hb)
      by_cases hmatch : (a : Int) = (x : Int) + i ∧ (b : Int) = (y : Int) + j
      · -- (a, b) is the cell bumped by the head offset
        have hta : ((x : Int) + i).toNat = a := by omega
        have htb : ((y : Int) + j).toNat = b := by omega
        have hget : fs.get a b = { n with mines_near := (n.mines_near + 1) % 16 } := by
          rw [hfs, ← hta, ← htb]
          exact get_setCell_self _ hWF (hta ▸ hg.2.2.1) (htb ▸ hg.2.2.2)
        have hnab : n = f.get a b := by rw [hn, hta, htb]
        have hnorest : ¬∃ p ∈ rest, (a : Int) = (x : Int) + p.1 ∧ (b : Int) = (y : Int) + p.2 := by
          rintro ⟨⟨i', j'⟩, hmem, hai, hbj⟩
          have hii : i' = i := by omega
          have hjj : j' = j := by omega
          subst hii; subst hjj
          exact hnd.1 hmem
        obtain ⟨hst, hmi, hmn⟩ := hpt'
        rw [if_neg hnorest] at hmn
        refine ⟨by rw [hst, hget, hnab], by rw [hmi, hget, hnab], ?_⟩
        rw [hmn, hget, hnab, if_pos ⟨(i, j), by simp, hmatch⟩]
      · -- (a, b) is untouched by the head offset
        have hget : fs.get a b = f.get a b := by
          refine get_setCell_ne _ hg.2.2.1 ha ?_
          rintro ⟨rfl, rfl⟩
          exact hmatch ⟨by omega, by omega⟩
        have hexiff : (∃ p ∈ (i, j) :: rest, (a : Int) = (x : Int) + p.1 ∧
            (b : Int) = (y : Int) + p.2) ↔
            ∃ p ∈ rest, (a : Int) = (x : Int) + p.1 ∧ (b : Int) = (y : Int) + p.2 := by
          constructor
          · rintro ⟨q, hq, hqm⟩
            rcases List.mem_cons.mp hq with rfl | hq
            · exact absurd hqm hmatch
            · exact ⟨q, hq, hqm⟩
          · rintro ⟨q, hq, hqm⟩
            exact ⟨q, List.mem_cons_of_mem _ hq, hqm⟩
        obtain ⟨hst, hmi, hmn⟩ := hpt'
        rw [hget] at hst hmi hmn
        refine ⟨hst, hmi, ?_⟩
        rw [hmn]
        by_cases hex : ∃ p ∈ rest, (a : Int) = (x : Int) + p.1 ∧ (b : Int) = (y : Int) + p.2
        · rw [if_pos hex, if_pos (hexiff.mpr hex)]
        · rw [if_neg hex, if_neg (fun h => hex (hexiff.mp h))]
    · rw [if_neg hg]
      obtain ⟨hw, hh, hl, hpt⟩ := ih hnd.2 f x y hWF
      refine ⟨hw, hh, hl, ?_⟩
      intro a b ha hb
      obtain ⟨hst, hmi, hmn⟩ := hpt a b ha hb
      refine ⟨hst, hmi, ?_⟩
      rw [hmn]
      have hexiff : (∃ p ∈ (i, j) :: rest, (a : Int) = (x : Int) + p.1 ∧
          (b : Int) = (y : Int) + p.2) ↔
          ∃ p ∈ rest, (a : Int) = (x : Int) + p.1 ∧ (b : Int) = (y : Int) + p.2 := by
        constructor
        · rintro ⟨q, hq, hqm⟩
          rcases List.mem_cons.mp hq with rfl | hq
          · exact absurd ⟨by omega, by omega, by omega, by omega⟩ hg
          · exact ⟨q, hq, hqm⟩
        · rintro ⟨q, hq, hqm⟩
          exact ⟨q, List.mem_cons_of_mem _ hq, hqm⟩
      by_cases hex : ∃ p ∈ rest, (a : Int) = (x : Int) + p.1 ∧ (b : Int) = (y : Int) + p.2
      · rw [if_pos hex, if_pos (hexiff.mpr hex)]
      · rw [if_neg hex, if_neg (fun h => hex (hexiff.mp h))]

/-! ### Placing one mine -/

theorem countP_set_incr {α : Type} (p : α → Bool) :
    ∀ (l : List α) (i : Nat) (a d : α), i < l.length →
    p (l.getD i d) = false → p a = true →
    (l.set i a).countP p = l.countP p + 1 := by
  intro l
  induction l with
  | nil => intro i a d hi; simp at hi
  | cons c rest ih =>
    intro i a d hi hold hnew
    cases i with
    | zero =>
      simp only [List.getD_cons_zero] at hold
      simp only [List.set]
      rw [List.countP_cons, List.countP_cons, hold, hnew]
      simp
    | succ n =>
      simp only [List.getD_cons_succ] at hold
      simp only [List.set]
      rw [List.countP_cons, List.countP_cons,
        ih n a d (by simpa using hi) hold hnew]
      omega

theorem countP_set_same {α : Type} (p : α → Bool) :
    ∀ (l : List α) (i : Nat) (a d : α), p a = p (l.getD i d) →
    (l.set i a).countP p = l.countP p := by
  intro l
  induction l with
  | nil => intro i a d _; simp
  | cons c rest ih =>
    intro i a d h
    cases i with
    | zero =>
      simp only [List.getD_cons_zero] at h
      simp only [List.set]
      rw [List.countP_cons, List.countP_cons, h]
    | succ n =>
      simp only [List.getD_cons_succ] at h
      simp only [List.set]
      rw [List.countP_cons, List.countP_cons, ih n a d h]

/-- Every loop offset moves at most one unit in each direction. -/
theorem boxOffsets_small : ∀ p ∈ boxOffsets, p.1.natAbs ≤ 1 ∧ p.2.natAbs ≤ 1 := by
  decide

/-- Conversely, every pair of unit-bounded integers is a loop offset. -/
theorem mem_boxOffsets {i j : Int} (hi : i.natAbs ≤ 1) (hj : j.natAbs ≤ 1) :
    (i, j) ∈ boxOffsets := by
  have h1 : i = -1 ∨ i = 0 ∨ i = 1 := by omega
  have h2 : j = -1 ∨ j = 0 ∨ j = 1 := by omega
  rcases h1 with rfl | rfl | rfl <;> rcases h2 with rfl | rfl | rfl <;> decide

/-- Membership of (x, y) in the 3-by-3 box around (a, b), stated through
the offset list, coincides with coordinate distance at most 1. -/
theorem box_exists_iff (x y a b : Nat) :
    (∃ p ∈ boxOffsets, (a : Int) + p.1 = x ∧ (b : Int) + p.2 = y) ↔
    ((a : Int) - x).natAbs ≤ 1 ∧ ((b : Int) - y).natAbs ≤ 1 := by
  constructor
  · rintro ⟨⟨i, j⟩, hmem, h1, h2⟩
    obtain ⟨hsi, hsj⟩ := boxOffsets_small _ hmem
    simp only at hsi hsj h1 h2
    exact ⟨by omega, by omega⟩
  · rintro ⟨h1, h2⟩
    exact ⟨((x : Int) - a, (y : Int) - b),
      mem_boxOffsets (by omega) (by omega), by omega, by omega⟩

/-- The reversed form of box membership: (a, b) lies in the box around
(x, y).  The box is symmetric, so both forms agree. -/
theorem box_exists_iff2 (x y a b : Nat) :
    (∃ p ∈ boxOffsets, (a : Int) = (x : Int) + p.1 ∧ (b : Int) = (y : Int) + p.2) ↔
    ((a : Int) - x).natAbs ≤ 1 ∧ ((b : Int) - y).natAbs ≤ 1 := by
  constructor
  · rintro ⟨⟨i, j⟩, hmem, h1, h2⟩
    obtain ⟨hsi, hsj⟩ := boxOffsets_small _ hmem
    simp only at hsi hsj h1 h2
    exact ⟨by omega, by omega⟩
  · rintro ⟨h1, h2⟩
    exact ⟨((a : Int) - x, (b : Int) - y),
      mem_boxOffsets (by omega) (by omega), by omega, by omega⟩

/-- Setting a mine at (x, y) raises by one the box count of every cell
whose box contains (x, y) and leaves the others unchanged. -/
theorem boxCount_set_mine (f : Field) (x y : Nat) (hWF : f.WF)
    (hx : x < f.width) (hy : y < f.height) (hnm : (f.get x y).is_mine = false) :
    ∀ a b, a < f.width → b < f.height →
    boxCount (f.setCell x y { f.get x y with is_mine := true }) a b =
      boxCount f a b +
        (if ((a : Int) - x).natAbs ≤ 1 ∧ ((b : Int) - y).natAbs ≤ 1 then 1 else 0) := by
  intro a b ha hb
  set f1 := f.setCell x y { f.get x y with is_mine := true } with hf1
  have hstep : boxOffsets.countP (mineAt f1 a b) =
      boxOffsets.countP (mineAt f a b) +
      boxOffsets.countP (fun p => decide ((a : Int) + p.1 = x ∧ (b : Int) + p.2 = y)) := by
    refine countP_add_of (fun p hp => ⟨?_, ?_⟩)
    · intro ht
      have hm : (a : Int) + p.1 = x ∧ (b : Int) + p.2 = y := by
        simpa using ht
      have hta : ((a : Int) + p.1).toNat = x := by omega
      have htb : ((b : Int) + p.2).toNat = y := by omega
      constructor
      · unfold mineAt
        apply decide_eq_true
        refine ⟨by omega, by omega, by rw [hta]; exact hx, by rw [htb]; exact hy, ?_⟩
        rw [hta, htb, hf1, get_setCell_self _ hWF hx hy]
      · unfold mineAt
        apply decide_eq_false
        rintro ⟨-, -, -, -, hmine⟩
        rw [hta, htb] at hmine
        rw [hnm] at hmine
        exact Bool.false_ne_true hmine
    · intro ht
      have hnmatch : ¬((a : Int) + p.1 = x ∧ (b : Int) + p.2 = y) := by
        simpa using ht
      by_cases hg : 0 ≤ (a : Int) + p.1 ∧ 0 ≤ (b : Int) + p.2 ∧
          ((a : Int) + p.1).toNat < f.width ∧ ((b : Int) + p.2).toNat < f.height
      · have hgetEq : f1.get ((a : Int) + p.1).toNat ((b : Int) + p.2).toNat =
            f.get ((a : Int) + p.1).toNat ((b : Int) + p.2).toNat := by
          refine get_setCell_ne _ hx hg.2.2.1 ?_
          rintro ⟨h1, h2⟩
          exact hnmatch ⟨by omega, by omega⟩
        unfold mineAt
        rw [hgetEq]
        rfl
      · unfold mineAt
        rw [decide_eq_false (fun hc => hg ⟨hc.1, hc.2.1, hc.2.2.1, hc.2.2.2.1⟩),
          decide_eq_false (fun hc => hg ⟨hc.1, hc.2.1, hc.2.2.1, hc.2.2.2.1⟩)]
  have huniq : boxOffsets.countP
      (fun p => decide ((a : Int) + p.1 = x ∧ (b : Int) + p.2 = y)) =
      if ∃ p ∈ boxOffsets, (a : Int) + p.1 = x ∧ (b : Int) + p.2 = y then 1 else 0 := by
    rw [countP_unique (by decide)
      (fun q hq q' hq' hpq hpq' => ?_)]
    · by_cases hex : ∃ p ∈ boxOffsets, (a : Int) + p.1 = x ∧ (b : Int) + p.2 = y
      · obtain ⟨p, hp, hpm⟩ := hex
        rw [if_pos ⟨p, hp, by simpa using hpm⟩, if_pos ⟨p, hp, hpm⟩]
      · rw [if_neg (fun hc => hex ?_), if_neg hex]
        obtain ⟨p, hp, hpm⟩ := hc
        exact ⟨p, hp, by simpa using hpm⟩
    · have h1 : (a : Int) + q.1 = x ∧ (b : Int) + q.2 = y := by simpa using hpq
      have h2 : (a : Int) + q'.1 = x ∧ (b : Int) + q'.2 = y := by simpa using hpq'
      have : q.1 = q'.1 := by omega
      have : q.2 = q'.2 := by omega
      exact Prod.ext (by omega) (by omega)
  unfold boxCount
  rw [hstep, huniq]
  by_cases hex : ((a : Int) - x).natAbs ≤ 1 ∧ ((b : Int) - y).natAbs ≤ 1
  · rw [if_pos hex, if_pos ((box_exists_iff x y a b).mpr hex)]
  · rw [if_neg hex, if_neg (fun hc => hex ((box_exists_iff x y a b).mp hc))]

/-- bumpNear never changes which cells are mines, so box counts are
unchanged by it. -/
theorem boxCount_bumpNear (f : Field) (x y : Nat) (hWF : f.WF) :
    ∀ a b, a < f.width → b < f.height →
    boxCount (bumpNear f x y boxOffsets) a b = boxCount f a b := by
  intro a b ha hb
  obtain ⟨hw, hh, hl, hpt⟩ := bumpNear_spec boxOffsets (by decide) f x y hWF
  unfold boxCount
  refine countP_ext (fun p hp => ?_)
  by_cases hg : 0 ≤ (a : Int) + p.1 ∧ 0 ≤ (b : Int) + p.2 ∧
      ((a : Int) + p.1).toNat < f.width ∧ ((b : Int) + p.2).toNat < f.height
  · have hcell := hpt ((a : Int) + p.1).toNat ((b : Int) + p.2).toNat hg.2.2.1 hg.2.2.2
    unfold mineAt
    rw [hcell.2.1]
    have hW : (bumpNear f x y boxOffsets).width = f.width := hw
    have hH : (bumpNear f x y boxOffsets).height = f.height := hh
    rw [hW, hH]
  · unfold mineAt
    have hW : (bumpNear f x y boxOffsets).width = f.width := hw
    have hH : (bumpNear f x y boxOffsets).height = f.height := hh
    rw [hW, hH]
    rw [decide_eq_false (fun hc => hg ⟨hc.1, hc.2.1, hc.2.2.1, hc.2.2.2.1⟩),
      decide_eq_false (fun hc => hg ⟨hc.1, hc.2.1, hc.2.2.1, hc.2.2.2.1⟩)]

theorem bumpNear_countMines (l : List (Int × Int)) :
    ∀ (f : Field) (x y : Nat), countMines (bumpNear f x y l).field = countMines f.field := by
  induction l with
  | nil => intro f x y; rfl
  | cons p rest ih =>
    obtain ⟨i, j⟩ := p
    intro f x y
    simp only [bumpNear]
    by_cases hg : 0 ≤ (x : Int) + i ∧ 0 ≤ (y : Int) + j ∧
        ((x : Int) + i).toNat < f.width ∧ ((y : Int) + j).toNat < f.height
    · rw [if_pos hg, ih]
      unfold countMines Field.setCell
      exact countP_set_same _ _ _ _ zeroCell rfl
    · rw [if_neg hg]
      exact ih f x y

/-- The generation invariant: every in-bounds cell's mines_near equals the
number of mines in the 3-by-3 box centred on it, itself included. -/
def Inv (f : Field) : Prop :=
  ∀ x y, x < f.width → y < f.height → (f.get x y).mines_near = boxCount f x y

/-- Frame facts about one mine placement (the else branch of the
Field_generate loop body): dimensions, the mine count, statuses and the
mines of other cells. -/
theorem place_frame (f : Field) (x y : Nat) (hWF : f.WF) (hx : x < f.width)
    (hy : y < f.height) (hnm : (f.get x y).is_mine = false) :
    (bumpNear (f.setCell x y { f.get x y with is_mine := true }) x y boxOffsets).width = f.width ∧
    (bumpNear (f.setCell x y { f.get x y with is_mine := true }) x y boxOffsets).height = f.height ∧
    (bumpNear (f.setCell x y { f.get x y with is_mine := true }) x y boxOffsets).field.length = f.field.length ∧
    countMines (bumpNear (f.setCell x y { f.get x y with is_mine := true }) x y boxOffsets).field =
      countMines f.field + 1 ∧
    (∀ a b, a < f.width → b < f.height →
      ((bumpNear (f.setCell x y { f.get x y with is_mine := true }) x y boxOffsets).get a b).status =
        (f.get a b).status) ∧
    (∀ a b, a < f.width → b < f.height → ¬(a = x ∧ b = y) →
      ((bumpNear (f.setCell x y { f.get x y with is_mine := true }) x y boxOffsets).get a b).is_mine =
        (f.get a b).is_mine) ∧
    ((bumpNear (f.setCell x y { f.get x y with is_mine := true }) x y boxOffsets).get x y).is_mine = true := by
  set f1 := f.setCell x y { f.get x y with is_mine := true } with hf1
  have hWF1 : f1.WF := setCell_WF _ _ _ hWF
  obtain ⟨hw, hh, hl, hpt⟩ := bumpNear_spec boxOffsets (by decide) f1 x y hWF1
  have hf1get : ∀ a b, a < f.width → b < f.height →
      f1.get a b = if a = x ∧ b = y then { f.get x y with is_mine := true } else f.get a b := by
    intro a b ha hb
    by_cases hab : a = x ∧ b = y
    · obtain ⟨rfl, rfl⟩ := hab
      rw [if_pos ⟨rfl, rfl⟩, hf1]
      exact get_setCell_self _ hWF hx hy
    · rw [if_neg hab, hf1]
      exact get_setCell_ne _ hx ha hab
  have hcount : countMines f1.field = countMines f.field + 1 := by
    rw [hf1]
    unfold countMines Field.setCell
    exact countP_set_incr _ _ _ _ zeroCell (inB_idx_lt hWF hx hy) (by exact hnm) rfl
  refine ⟨hw, hh, hl.trans (setCell_length _ _ _ _), ?_, ?_, ?_, ?_⟩
  · rw [bumpNear_countMines, hcount]
  · intro a b ha hb
    have := (hpt a b ha hb).1
    rw [this, hf1get a b ha hb]
    by_cases hab : a = x ∧ b = y
    · obtain ⟨rfl, rfl⟩ := hab
      rw [if_pos ⟨rfl, rfl⟩]
    · rw [if_neg hab]
  · intro a b ha hb hab
    have := (hpt a b ha hb).2.1
    rw [this, hf1get a b ha hb, if_neg hab]
  · have := (hpt x y hx hy).2.1
    rw [this, hf1get x y hx hy, if_pos ⟨rfl, rfl⟩]

/-- One mine placement preserves the generation invariant. -/
theorem place_inv (f : Field) (x y : Nat) (hWF : f.WF) (hx : x < f.width)
    (hy : y < f.height) (hnm : (f.get x y).is_mine = false) (hInv : Inv f) :
    Inv (bumpNear (f.setCell x y { f.get x y with is_mine := true }) x y boxOffsets) := by
  set f1 := f.setCell x y { f.get x y with is_mine := true } with hf1
  have hWF1 : f1.WF := setCell_WF _ _ _ hWF
  obtain ⟨hw, hh, hl, hpt⟩ := bumpNear_spec boxOffsets (by decide) f1 x y hWF1
  intro a b ha hb
  rw [hw] at ha
  rw [hh] at hb
  have ha' : a < f.width := ha
  have hb' : b < f.height := hb
  have hmn1 : (f1.get a b).mines_near = (f.get a b).mines_near := by
    by_cases hab : a = x ∧ b = y
    · obtain ⟨rfl, rfl⟩ := hab
      rw [hf1, get_setCell_self _ hWF hx hy]
    · rw [hf1, get_setCell_ne _ hx ha' hab]
  have hbc2 : boxCount (bumpNear f1 x y boxOffsets) a b = boxCount f1 a b :=
    boxCount_bumpNear f1 x y hWF1 a b ha' hb'
  have hbc1 : boxCount f1 a b = boxCount f a b +
      (if ((a : Int) - x).natAbs ≤ 1 ∧ ((b : Int) - y).natAbs ≤ 1 then 1 else 0) := by
    rw [hf1]
    exact boxCount_set_mine f x y hWF hx hy hnm a b ha' hb'
  have hmn2 := (hpt a b ha' hb').2.2
  rw [hmn2, hmn1, hInv a b ha' hb', hbc2, hbc1]
  have hle := boxCount_le f a b
  by_cases hD : ((a : Int) - x).natAbs ≤ 1 ∧ ((b : Int) - y).natAbs ≤ 1
  · rw [if_pos ((box_exists_iff2 x y a b).mpr hD), if_pos hD,
      Nat.mod_eq_of_lt (by omega)]
  · rw [if_neg (fun hc => hD ((box_exists_iff2 x y a b).mp hc)), if_neg hD]
    omega

/-! ### Generation: the main induction -/

theorem generate_invariant :
    ∀ (draws : List (Nat × Nat)) (m : Nat) (f f' : Field), f.WF →
    0 < f.width → 0 < f.height → Inv f →
    Field_generate f m draws = some f' →
    f'.width = f.width ∧ f'.height = f.height ∧ f'.WF ∧ Inv f' ∧
    countMines f'.field = countMines f.field + m ∧
    (∀ a b, a < f.width → b < f.height →
      (f'.get a b).status = (f.get a b).status) := by
  intro draws
  induction draws with
  | nil =>
    intro m f f' hWF hw0 hh0 hInv hgen
    cases m with
    | zero =>
      injection hgen with hgen
      subst hgen
      exact ⟨rfl, rfl, hWF, hInv, by omega, fun a b _ _ => rfl⟩
    | succ m' => exact absurd hgen (by simp [Field_generate])
  | cons q rest ih =>
    intro m f f' hWF hw0 hh0 hInv hgen
    obtain ⟨r1, r2⟩ := q
    cases m with
    | zero =>
      injection hgen with hgen
      subst hgen
      exact ⟨rfl, rfl, hWF, hInv, by omega, fun a b _ _ => rfl⟩
    | succ m' =>
      simp only [Field_generate] at hgen
      by_cases hmine : (f.get (r1 % f.width) (r2 % f.height)).is_mine = true
      · rw [if_pos hmine] at hgen
        exact ih (m' + 1) f f' hWF hw0 hh0 hInv hgen
      · rw [if_neg hmine] at hgen
        have hx : r1 % f.width < f.width := Nat.mod_lt _ hw0
        have hy : r2 % f.height < f.height := Nat.mod_lt _ hh0
        have hmf : (f.get (r1 % f.width) (r2 % f.height)).is_mine = false := by
          simpa using hmine
        obtain ⟨hw, hh, hl, hcm, hst, hmi, hmix⟩ :=
          place_frame f (r1 % f.width) (r2 % f.height) hWF hx hy hmf
        have hinv2 := place_inv f (r1 % f.width) (r2 % f.height) hWF hx hy hmf hInv
        set f2 := bumpNear
          (f.setCell (r1 % f.width) (r2 % f.height)
            { f.get (r1 % f.width) (r2 % f.height) with is_mine := true })
          (r1 % f.width) (r2 % f.height) boxOffsets with hf2
        have hWF2 : f2.WF := by
          unfold Field.WF
          rw [hl, hw, hh]
          exact hWF
        obtain ⟨hw', hh', hWF', hInv', hcm', hst'⟩ :=
          ih m' f2 f' hWF2 (by rw [hw]; exact hw0) (by rw [hh]; exact hh0) hinv2 hgen
        refine ⟨hw'.trans hw, hh'.trans hh, hWF', hInv', ?_, ?_⟩
        · rw [hcm', hcm]
          omega
        · intro a b ha hb
          rw [hst' a b (by rw [hw]; exact ha) (by rw [hh]; exact hb), hst a b ha hb]

theorem mk0_get (w h a b : Nat) : (Field.mk0 w h).get a b = zeroCell := by
  unfold Field.mk0 Field.get
  exact getD_replicate _ _ _

theorem mk0_WF (w h : Nat) : (Field.mk0 w h).WF := by
  unfold Field.WF Field.mk0
  simp

theorem mk0_Inv (w h : Nat) : Inv (Field.mk0 w h) := by
  intro x y hx hy
  rw [mk0_get]
  unfold boxCount
  have hz : List.countP (mineAt (Field.mk0 w h) x y) boxOffsets = 0 := by
    rw [List.countP_eq_zero]
    intro p hp
    unfold mineAt
    simp only [decide_eq_true_eq, not_and]
    intro h1 h2 h3 h4
    rw [mk0_get]
    exact Bool.false_ne_true
  rw [hz]
  rfl

theorem mk0_countMines (w h : Nat) : countMines (Field.mk0 w h).field = 0 := by
  unfold countMines Field.mk0
  rw [List.countP_eq_zero.mpr ?_]
  intro c hc
  rw [List.eq_of_mem_replicate hc]
  simp [zeroCell]

/-- Generation succeeds when enough pairwise distinct fresh cells are
drawn. -/
theorem generate_succeeds :
    ∀ (l : List (Nat × Nat)) (f : Field) (m : Nat), f.WF →
    0 < f.width → 0 < f.height → m ≤ l.length →
    (∀ q ∈ l, (f.get (q.1 % f.width) (q.2 % f.height)).is_mine = false) →
    (l.map (fun q => (q.1 % f.width, q.2 % f.height))).Nodup →
    ∃ f', Field_generate f m l = some f' := by
  intro l
  induction l with
  | nil =>
    intro f m _ _ _ hm _ _
    cases m with
    | zero => exact ⟨f, rfl⟩
    | succ m' => simp at hm
  | cons q rest ih =>
    intro f m hWF hw0 hh0 hm hfresh hnd
    obtain ⟨r1, r2⟩ := q
    cases m with
    | zero => exact ⟨f, rfl⟩
    | succ m' =>
      simp only [Field_generate]
      have hx : r1 % f.width < f.width := Nat.mod_lt _ hw0
      have hy : r2 % f.height < f.height := Nat.mod_lt _ hh0
      have hmf : (f.get (r1 % f.width) (r2 % f.height)).is_mine = false :=
        hfresh (r1, r2) (by simp)
      rw [if_neg (by rw [hmf]; exact Bool.false_ne_true)]
      obtain ⟨hw, hh, hl, hcm, hst, hmi, hmix⟩ :=
        place_frame f (r1 % f.width) (r2 % f.height) hWF hx hy hmf
      set f2 := bumpNear
        (f.setCell (r1 % f.width) (r2 % f.height)
          { f.get (r1 % f.width) (r2 % f.height) with is_mine := true })
        (r1 % f.width) (r2 % f.height) boxOffsets with hf2
      have hWF2 : f2.WF := by
        unfold Field.WF
        rw [hl, hw, hh]
        exact hWF
      rw [List.map_cons, List.nodup_cons] at hnd
      refine ih f2 m' hWF2 (by rw [hw]; exact hw0) (by rw [hh]; exact hh0)
        (by simpa using hm) ?_ ?_
      · intro p hp
        have hxp : p.1 % f2.width = p.1 % f.width := by rw [hw]
        have hyp : p.2 % f2.height = p.2 % f.height := by rw [hh]
        rw [hxp, hyp]
        have hb1 : p.1 % f.width < f.width := Nat.mod_lt _ hw0
        have hb2 : p.2 % f.height < f.height := Nat.mod_lt _ hh0
        have hne : ¬(p.1 % f.width = r1 % f.width ∧ p.2 % f.height = r2 % f.height) := by
          rintro ⟨h1, h2⟩
          refine hnd.1 ?_
          rw [show (r1 % f.width, r2 % f.height) = (p.1 % f.width, p.2 % f.height) from
            by rw [h1, h2]]
          exact List.mem_map_of_mem _ hp
        rw [hmi _ _ hb1 hb2 hne]
        exact hfresh p (List.mem_cons_of_mem _ hp)
      · have hmapeq : rest.map (fun q => (q.1 % f2.width, q.2 % f2.height)) =
            rest.map (fun q => (q.1 % f.width, q.2 % f.height)) := by
          refine List.map_congr_left (fun p hp => ?_)
          rw [hw, hh]
        rw [hmapeq]
        exact hnd.2

/-! ### C5: exactly mineCount mines -/

/-- C5: whenever generation completes, exactly mineCount cells carry a
mine (a redrawn mined cell is retried, never counted twice), and for any
positive dimensions with mineCount at most width * height there is a draw
stream on which generation completes. -/
theorem c5_generate_count (w h m : Nat) :
    (∀ draws f', Field_generate (Field.mk0 w h) m draws = some f' →
      0 < w → 0 < h → countMines f'.field = m)
    ∧ (0 < w → 0 < h → m ≤ w * h →
      ∃ draws f', Field_generate (Field.mk0 w h) m draws = some f') := by
  constructor
  · intro draws f' hgen hw0 hh0
    obtain ⟨-, -, -, -, hcm, -⟩ :=
      generate_invariant draws m (Field.mk0 w h) f' (mk0_WF w h) hw0 hh0 (mk0_Inv w h) hgen
    rw [hcm, mk0_countMines]
    omega
  · intro hw0 hh0 hm
    refine ⟨(List.range m).map (fun k => (k % w, k / w)), ?_⟩
    refine generate_succeeds _ (Field.mk0 w h) m (mk0_WF w h) hw0 hh0 (by simp) ?_ ?_
    · intro q hq
      rw [mk0_get]
      rfl
    · have hmap : ((List.range m).map (fun k => (k % w, k / w))).map
          (fun q => (q.1 % (Field.mk0 w h).width, q.2 % (Field.mk0 w h).height)) =
          (List.range m).map (fun k => (k % w, k / w)) := by
        rw [List.map_map]
        refine List.map_congr_left (fun k hk => ?_)
        have hkm : k < m := List.mem_range.mp hk
        have h1 : k % w % w = k % w := Nat.mod_eq_of_lt (Nat.mod_lt _ hw0)
        have h2 : k / w < h := by
          rw [Nat.div_lt_iff_lt_mul hw0]
          calc k < m := hkm
            _ ≤ w * h := hm
            _ = h * w := Nat.mul_comm _ _
        have h3 : k / w % h = k / w := Nat.mod_eq_of_lt h2
        show (k % w % (Field.mk0 w h).width, k / w % (Field.mk0 w h).height) = (k % w, k / w)
        show (k % w % w, k / w % h) = (k % w, k / w)
        rw [h1, h3]
      rw [hmap]
      refine List.Nodup.map ?_ (List.nodup_range m)
      intro k k' hkk
      have h1 : k % w = k' % w := congrArg Prod.fst hkk
      have h2 : k / w = k' / w := congrArg Prod.snd hkk
      calc k = w * (k / w) + k % w := (Nat.div_add_mod k w).symm
        _ = w * (k' / w) + k' % w := by rw [h1, h2]
        _ = k' := Nat.div_add_mod k' w

theorem c5_generate_count_witness :
    Field_generate (Field.mk0 2 2) 1 [(0, 0)] =
      some ⟨2, 2, [⟨Status.HIDDEN, true, 1⟩, ⟨Status.HIDDEN, false, 1⟩,
        ⟨Status.HIDDEN, false, 1⟩, ⟨Status.HIDDEN, false, 1⟩]⟩ ∧
    countMines (⟨2, 2, [⟨Status.HIDDEN, true, 1⟩, ⟨Status.HIDDEN, false, 1⟩,
      ⟨Status.HIDDEN, false, 1⟩, ⟨Status.HIDDEN, false, 1⟩]⟩ : Field).field = 1 :=
  ⟨by decide,
    (c5_generate_count 2 2 1).1 [(0, 0)]
      ⟨2, 2, [⟨Status.HIDDEN, true, 1⟩, ⟨Status.HIDDEN, false, 1⟩,
        ⟨Status.HIDDEN, false, 1⟩, ⟨Status.HIDDEN, false, 1⟩]⟩
      (by decide) (by decide) (by decide)⟩

/-! ### C1: mines_near after generation -/

/-- C1 counterexample: on a 1-by-1 board, generating one mine gives the
mined cell mines_near = 1, while it has no neighbors at all — the
neighbor-increment loop of Field_generate includes the offset (0, 0), so
the claimed equality with the count over the up-to-8 neighbors (the cell
itself excluded) fails on every mine cell. -/
theorem c1_counterexample :
    Field_generate (Field.mk0 1 1) 1 [(0, 0)] =
      some ⟨1, 1, [⟨Status.HIDDEN, true, 1⟩]⟩ ∧
    specNeighborMines ⟨1, 1, [⟨Status.HIDDEN, true, 1⟩]⟩ 0 0 = 0 ∧
    ((⟨1, 1, [⟨Status.HIDDEN, true, 1⟩]⟩ : Field).get 0 0).mines_near = 1 := by
  refine ⟨by decide, by decide, by decide⟩

/-- C1 as amended: after generation on a fresh board, every in-bounds
cell's mines_near equals the number of mine-bearing cells among its
up-to-8 Moore neighbors plus one when the cell itself is a mine (the
generation loop increments the mined cell's own counter through the
offset (0, 0)); for non-mine cells the original claim holds verbatim. -/
theorem c1_generate_adjacency (w h m : Nat) (draws : List (Nat × Nat)) (f' : Field)
    (hw0 : 0 < w) (hh0 : 0 < h)
    (hgen : Field_generate (Field.mk0 w h) m draws = some f') :
    ∀ x y, x < f'.width → y < f'.height →
      (f'.get x y).mines_near =
        specNeighborMines f' x y + (if (f'.get x y).is_mine then 1 else 0) := by
  obtain ⟨hw, hh, hWF', hInv', -, -⟩ :=
    generate_invariant draws m (Field.mk0 w h) f' (mk0_WF w h) hw0 hh0 (mk0_Inv w h) hgen
  intro x y hx hy
  rw [hInv' x y hx hy]
  exact boxCount_split f' x y hx hy

theorem c1_generate_adjacency_witness :
    (0 : Nat) < 1 ∧
    ((⟨1, 1, [⟨Status.HIDDEN, true, 1⟩]⟩ : Field).get 0 0).mines_near =
      specNeighborMines ⟨1, 1, [⟨Status.HIDDEN, true, 1⟩]⟩ 0 0 +
        (if ((⟨1, 1, [⟨Status.HIDDEN, true, 1⟩]⟩ : Field).get 0 0).is_mine then 1 else 0) :=
  ⟨by decide,
    c1_generate_adjacency 1 1 1 [(0, 0)] ⟨1, 1, [⟨Status.HIDDEN, true, 1⟩]⟩
      (by decide) (by decide) (by decide) 0 0 (by decide) (by decide)⟩

/-! ### C10: mine cells have positive adjacency and open alone -/

/-- C10: after generation on a fresh board, every in-bounds mine cell has
mines_near at least 1 (the neighbor loop of Field_generate includes the
offset (0, 0), bumping the mined cell's own counter), and therefore
Field_open on a mine cell only opens that single cell and never recurses
into its neighbors. -/
theorem c10_mine_open_single (w h m : Nat) (draws : List (Nat × Nat)) (f' : Field)
    (hw0 : 0 < w) (hh0 : 0 < h) (hm1 : 1 ≤ m)
    (hgen : Field_generate (Field.mk0 w h) m draws = some f') :
    ∀ x y, x < f'.width → y < f'.height → (f'.get x y).is_mine = true →
      1 ≤ (f'.get x y).mines_near ∧
      Field_open f' x y = f'.setCell x y { f'.get x y with status := Status.OPENED } := by
  obtain ⟨hw, hh, hWF', hInv', -, hst⟩ :=
    generate_invariant draws m (Field.mk0 w h) f' (mk0_WF w h) hw0 hh0 (mk0_Inv w h) hgen
  intro x y hx hy hmine
  have hpos : 1 ≤ (f'.get x y).mines_near := by
    rw [hInv' x y hx hy]
    have hself : mineAt f' x y (0, 0) = true := by
      unfold mineAt
      apply decide_eq_true
      refine ⟨by omega, by omega, ?_, ?_, ?_⟩
      · show ((x : Int) + 0).toNat < f'.width
        omega
      · show ((y : Int) + 0).toNat < f'.height
        omega
      · have h1 : ((x : Int) + 0).toNat = x := by omega
        have h2 : ((y : Int) + 0).toNat = y := by omega
        rw [h1, h2]
        exact hmine
    have : 0 < boxOffsets.countP (mineAt f' x y) :=
      List.countP_pos.mpr ⟨(0, 0), by decide, hself⟩
    unfold boxCount
    omega
  refine ⟨hpos, ?_⟩
  have hhid : (f'.get x y).status = Status.HIDDEN := by
    rw [hst x y (by omega) (by omega), mk0_get]
    rfl
  unfold Field_open
  rw [openFuel]
  rw [if_neg (by omega), if_neg (by rw [hhid]; exact fun hc => Status.noConfusion hc),
    if_pos (by omega)]

theorem c10_mine_open_single_witness :
    1 ≤ ((⟨1, 1, [⟨Status.HIDDEN, true, 1⟩]⟩ : Field).get 0 0).mines_near ∧
    Field_open ⟨1, 1, [⟨Status.HIDDEN, true, 1⟩]⟩ 0 0 =
      (⟨1, 1, [⟨Status.HIDDEN, true, 1⟩]⟩ : Field).setCell 0 0
        { (⟨1, 1, [⟨Status.HIDDEN, true, 1⟩]⟩ : Field).get 0 0 with status := Status.OPENED } :=
  c10_mine_open_single 1 1 1 [(0, 0)] ⟨1, 1, [⟨Status.HIDDEN, true, 1⟩]⟩
    (by decide) (by decide) (by decide) (by decide) 0 0 (by decide) (by decide) (by decide)

/-! ### C3: the flood fill.  First, the opening order on fields. -/

/-- A cell evolves under Field_open by either staying put or having its
status overwritten with OPENED. -/
def cellOpens (c c' : Field_Cell) : Prop :=
  c' = c ∨ c' = { c with status := Status.OPENED }

/-- f' is f with some set of cells switched to OPENED, nothing else. -/
def Opens (f f' : Field) : Prop :=
  f'.width = f.width ∧ f'.height = f.height ∧ List.Forall₂ cellOpens f.field f'.field

theorem cellOpens_refl (c : Field_Cell) : cellOpens c c := Or.inl rfl

theorem cellOpens_trans {a b c : Field_Cell} (h1 : cellOpens a b) (h2 : cellOpens b c) :
    cellOpens a c := by
  rcases h1 with rfl | rfl
  · exact h2
  · rcases h2 with rfl | rfl
    · exact Or.inr rfl
    · exact Or.inr rfl

theorem cellOpens_mine {a b : Field_Cell} (h : cellOpens a b) : b.is_mine = a.is_mine := by
  rcases h with rfl | rfl <;> rfl

theorem cellOpens_near {a b : Field_Cell} (h : cellOpens a b) : b.mines_near = a.mines_near := by
  rcases h with rfl | rfl <;> rfl

theorem cellOpens_status {a b : Field_Cell} (h : cellOpens a b) :
    b.status = a.status ∨ b.status = Status.OPENED := by
  rcases h with rfl | rfl
  · exact Or.inl rfl
  · exact Or.inr rfl

theorem cellOpens_notOpened {a b : Field_Cell} (h : cellOpens a b)
    (hb : b.status ≠ Status.OPENED) : b = a := by
  rcases h with rfl | rfl
  · rfl
  · exact absurd rfl hb

theorem forall2_refl {α : Type} {R : α → α → Prop} (hR : ∀ a, R a a) (l : List α) :
    List.Forall₂ R l l := by
  induction l with
  | nil => exact List.Forall₂.nil
  | cons c rest ih => exact List.Forall₂.cons (hR c) ih

theorem forall2_trans {α : Type} {R : α → α → Prop} :
    ∀ {l1 l2 l3 : List α}, List.Forall₂ R l1 l2 → List.Forall₂ R l2 l3 →
    (∀ a b c, R a b → R b c → R a c) → List.Forall₂ R l1 l3 := by
  intro l1
  induction l1 with
  | nil =>
    intro l2 l3 h12 h23 hR
    cases h12
    cases h23
    exact List.Forall₂.nil
  | cons c rest ih =>
    intro l2 l3 h12 h23 hR
    cases h12 with
    | cons hc hrest =>
      cases h23 with
      | cons hc' hrest' =>
        exact List.Forall₂.cons (hR _ _ _ hc hc') (ih hrest hrest' hR)

theorem forall2_getD {α : Type} {R : α → α → Prop} {d : α} (hd : R d d) :
    ∀ {l1 l2 : List α}, List.Forall₂ R l1 l2 → ∀ k, R (l1.getD k d) (l2.getD k d) := by
  intro l1
  induction l1 with
  | nil =>
    intro l2 h k
    cases h
    exact hd
  | cons c rest ih =>
    intro l2 h k
    cases h with
    | cons hc hrest =>
      cases k with
      | zero => simpa [List.getD_cons_zero] using hc
      | succ n => simpa [List.getD_cons_succ] using ih hrest n

theorem forall2_set {α : Type} {R : α → α → Prop} {d : α} :
    ∀ (l : List α) (i : Nat) (a : α), (∀ c, R c c) → R (l.getD i d) a →
    List.Forall₂ R l (l.set i a) := by
  intro l
  induction l with
  | nil => intro i a hrefl h; exact List.Forall₂.nil
  | cons c rest ih =>
    intro i a hrefl h
    cases i with
    | zero =>
      simp only [List.getD_cons_zero] at h
      exact List.Forall₂.cons h (forall2_refl hrefl rest)
    | succ n =>
      simp only [List.getD_cons_succ] at h
      exact List.Forall₂.cons (hrefl c) (ih n a hrefl h)

theorem Opens_refl (f : Field) : Opens f f :=
  ⟨rfl, rfl, forall2_refl cellOpens_refl f.field⟩

theorem Opens_trans {f g h : Field} (h1 : Opens f g) (h2 : Opens g h) : Opens f h :=
  ⟨h2.1.trans h1.1, h2.2.1.trans h1.2.1,
    forall2_trans h1.2.2 h2.2.2 (fun _ _ _ ha hb => cellOpens_trans ha hb)⟩


theorem Opens_get {f f' : Field} (h : Opens f f') (a b : Nat) :
    cellOpens (f.get a b) (f'.get a b) := by
  unfold Field.get
  rw [h.1]
  exact forall2_getD (cellOpens_refl zeroCell) h.2.2 (a + b * f.width)

theorem Opens_length {f f' : Field} (h : Opens f f') :
    f'.field.length = f.field.length := (List.Forall₂.length_eq h.2.2).symm

theorem Opens_WF {f f' : Field} (h : Opens f f') (hWF : f.WF) : f'.WF := by
  unfold Field.WF at hWF ⊢
  rw [Opens_length h, h.1, h.2.1]
  exact hWF

/-- The single-cell opening step is an Opens step. -/
theorem Opens_setOpen (f : Field) (x y : Nat) :
    Opens f (f.setCell x y { f.get x y with status := Status.OPENED }) :=
  ⟨rfl, rfl, forall2_set f.field _ _ cellOpens_refl (Or.inr rfl)⟩

theorem openListF_opens (rec : Field → Nat → Nat → Field)
    (hrec : ∀ g a b, Opens g (rec g a b)) :
    ∀ (l : List (Int × Int)) (f : Field) (x y : Nat),
    Opens f (openListF rec f x y l) := by
  intro l
  induction l with
  | nil => intro f x y; exact Opens_refl f
  | cons p rest ih =>
    obtain ⟨i, j⟩ := p
    intro f x y
    simp only [openListF]
    by_cases hg : 0 ≤ (x : Int) + i ∧ 0 ≤ (y : Int) + j ∧
        ((x : Int) + i).toNat < f.width ∧ ((y : Int) + j).toNat < f.height
    · rw [if_pos hg]
      exact Opens_trans (hrec f _ _) (ih _ x y)
    · rw [if_neg hg]
      exact ih f x y

theorem openFuel_opens : ∀ (fuel : Nat) (f : Field) (x y : Nat),
    Opens f (openFuel fuel f x y) := by
  intro fuel
  induction fuel with
  | zero => intro f x y; exact Opens_refl f
  | succ fuel ih =>
    intro f x y
    rw [openFuel]
    by_cases h1 : f.width ≤ x ∨ f.height ≤ y
    · rw [if_pos h1]; exact Opens_refl f
    · rw [if_neg h1]
      by_cases h2 : (f.get x y).status = Status.OPENED
      · rw [if_pos h2]; exact Opens_refl f
      · rw [if_neg h2]
        by_cases h3 : (f.get x y).mines_near ≠ 0
        · simp only [if_pos h3]
          exact Opens_setOpen f x y
        · simp only [if_neg h3]
          exact Opens_trans (Opens_setOpen f x y)
            (openListF_opens _ (fun g a b => ih g a b) boxOffsets _ x y)

theorem opened_mono {f f' : Field} (h : Opens f f') {a b : Nat}
    (ho : (f.get a b).status = Status.OPENED) : (f'.get a b).status = Status.OPENED := by
  rcases cellOpens_status (Opens_get h a b) with hs | hs
  · rw [hs, ho]
  · exact hs

/-! ### Reachability through the flood fill -/

/-- Moore adjacency (distance at most 1 in both coordinates; includes the
cell itself, which is harmless because the offset loop of the source does
visit (0, 0)). -/
def adjB (x y a b : Nat) : Prop :=
  ((a : Int) - x).natAbs ≤ 1 ∧ ((b : Int) - y).natAbs ≤ 1

instance (x y a b : Nat) : Decidable (adjB x y a b) := by
  unfold adjB; infer_instance

/-- Cells the recursive Field_open call starting at (x0, y0) visits and
opens: the start cell, plus anything connected to it through in-bounds
cells that have mines_near = 0 and are not already Opened. -/
inductive Reach (f : Field) (x0 y0 : Nat) : Nat → Nat → Prop where
  | base : f.inB x0 y0 → Reach f x0 y0 x0 y0
  | step {x y a b : Nat} : Reach f x0 y0 x y →
      (f.get x y).mines_near = 0 → (f.get x y).status ≠ Status.OPENED →
      adjB x y a b → f.inB a b → Reach f x0 y0 a b

/-- The spec-side region: connectivity through zero-adjacency cells alone,
ignoring their status, as the claim words it. -/
inductive SpecReach (f : Field) (x0 y0 : Nat) : Nat → Nat → Prop where
  | base : f.inB x0 y0 → SpecReach f x0 y0 x0 y0
  | step {x y a b : Nat} : SpecReach f x0 y0 x y →
      (f.get x y).mines_near = 0 → adjB x y a b → f.inB a b → SpecReach f x0 y0 a b

/-- Reachability is antitone along Opens: opening cells only removes paths. -/
theorem Reach_anti {f f' : Field} (h : Opens f f') (x0 y0 : Nat) :
    ∀ {a b : Nat}, Reach f' x0 y0 a b → Reach f x0 y0 a b := by
  intro a b hr
  induction hr with
  | base hin =>
    refine Reach.base ?_
    unfold Field.inB at hin ⊢
    rw [h.1, h.2.1] at hin
    exact hin
  | step hr hz hno hadj hin ih =>
    rename_i x y a' b'
    have hco := Opens_get h x y
    have hcell : f'.get x y = f.get x y ∨
        f'.get x y = { f.get x y with status := Status.OPENED } := hco
    have hzf : (f.get x y).mines_near = 0 := by
      rw [← cellOpens_near hco]
      exact hz
    have hnof : (f.get x y).status ≠ Status.OPENED := by
      have := cellOpens_notOpened hco hno
      rw [← this]
      exact hno
    refine Reach.step ih hzf hnof hadj ?_
    unfold Field.inB at hin ⊢
    rw [h.1, h.2.1] at hin
    exact hin

/-- Prepend the root to a reach derivation that starts at a neighbor. -/
theorem Reach_prepend {f : Field} {x0 y0 x1 y1 : Nat}
    (hin0 : f.inB x0 y0) (hz0 : (f.get x0 y0).mines_near = 0)
    (hno0 : (f.get x0 y0).status ≠ Status.OPENED) (hadj0 : adjB x0 y0 x1 y1) :
    ∀ {a b : Nat}, Reach f x1 y1 a b → Reach f x0 y0 a b := by
  intro a b hr
  induction hr with
  | base hin1 => exact Reach.step (Reach.base hin0) hz0 hno0 hadj0 hin1
  | step hr hz hno hadj hin ih => exact Reach.step ih hz hno hadj hin

/-- Every offset of the source loops moves at most one cell in each
direction. -/
theorem offset_adj {x y : Nat} {i j : Int} (hmem : (i, j) ∈ boxOffsets)
    (hnx : 0 ≤ (x : Int) + i) (hny : 0 ≤ (y : Int) + j) :
    adjB x y ((x : Int) + i).toNat ((y : Int) + j).toNat := by
  obtain ⟨hsi, hsj⟩ := boxOffsets_small _ hmem
  simp only at hsi hsj
  unfold adjB
  exact ⟨by omega, by omega⟩

/-- Conversely every Moore neighbor arises from one of the loop offsets. -/
theorem adj_offset {x y a b : Nat} (h : adjB x y a b) :
    ∃ p ∈ boxOffsets, (a : Int) = (x : Int) + p.1 ∧ (b : Int) = (y : Int) + p.2 :=
  (box_exists_iff2 x y a b).mpr h

/-- With at least one unit of fuel, opening an in-bounds cell leaves it
Opened. -/
theorem self_open : ∀ (fuel : Nat) (f : Field) (x y : Nat), 1 ≤ fuel → f.WF →
    x < f.width → y < f.height →
    ((openFuel fuel f x y).get x y).status = Status.OPENED := by
  intro fuel
  cases fuel with
  | zero => intro f x y h; omega
  | succ fuel =>
    intro f x y _ hWF hx hy
    rw [openFuel]
    rw [if_neg (by omega)]
    by_cases h2 : (f.get x y).status = Status.OPENED
    · rw [if_pos h2]
      exact h2
    · rw [if_neg h2]
      have hself : ((f.setCell x y { f.get x y with status := Status.OPENED }).get x y).status =
          Status.OPENED := by
        rw [get_setCell_self _ hWF hx hy]
      by_cases h3 : (f.get x y).mines_near ≠ 0
      · simp only [if_pos h3]
        exact hself
      · simp only [if_neg h3]
        refine opened_mono (openListF_opens _ (fun g a b => openFuel_opens fuel g a b)
          boxOffsets _ x y) hself

/-- After the neighbor loop, every in-bounds neighbor named by the offset
list is Opened. -/
theorem openListF_openedAll (rec : Field → Nat → Nat → Field)
    (hrec_opens : ∀ g a b, Opens g (rec g a b))
    (hrec_self : ∀ g a b, g.WF → a < g.width → b < g.height →
      ((rec g a b).get a b).status = Status.OPENED) :
    ∀ (l : List (Int × Int)) (f : Field) (x y : Nat), f.WF →
    ∀ i j, (i, j) ∈ l → 0 ≤ (x : Int) + i → 0 ≤ (y : Int) + j →
    ((x : Int) + i).toNat < f.width → ((y : Int) + j).toNat < f.height →
    ((openListF rec f x y l).get ((x : Int) + i).toNat ((y : Int) + j).toNat).status =
      Status.OPENED := by
  intro l
  induction l with
  | nil => intro f x y _ i j hmem; exact absurd hmem (by simp)
  | cons p rest ih =>
    obtain ⟨i0, j0⟩ := p
    intro f x y hWF i j hmem hnx hny hbx hby
    simp only [openListF]
    rcases List.mem_cons.mp hmem with heq | hmem'
    · injection heq with h1 h2
      subst h1; subst h2
      rw [if_pos ⟨hnx, hny, hbx, hby⟩]
      have hopen := hrec_self f _ _ hWF hbx hby
      exact opened_mono (openListF_opens _ hrec_opens rest _ x y) hopen
    · by_cases hg : 0 ≤ (x : Int) + i0 ∧ 0 ≤ (y : Int) + j0 ∧
          ((x : Int) + i0).toNat < f.width ∧ ((y : Int) + j0).toNat < f.height
      · rw [if_pos hg]
        have hO := hrec_opens f ((x : Int) + i0).toNat ((y : Int) + j0).toNat
        refine ih (rec f _ _) x y (Opens_WF hO hWF) i j hmem' hnx hny ?_ ?_
        · rw [hO.1]; exact hbx
        · rw [hO.2.1]; exact hby
      · rw [if_neg hg]
        exact ih f x y hWF i j hmem' hnx hny hbx hby

/-! ### Soundness: every newly opened cell is reachable -/

theorem sound_list (rec : Field → Nat → Nat → Field)
    (hrec_opens : ∀ g a b, Opens g (rec g a b))
    (hrec_sound : ∀ g a b p q, g.WF → p < g.width → q < g.height →
      ((rec g a b).get p q).status = Status.OPENED →
      (g.get p q).status = Status.OPENED ∨ Reach g a b p q) :
    ∀ (l : List (Int × Int)) (f : Field) (x y p q : Nat), f.WF →
    p < f.width → q < f.height →
    ((openListF rec f x y l).get p q).status = Status.OPENED →
    (f.get p q).status = Status.OPENED ∨
      ∃ i j, (i, j) ∈ l ∧ 0 ≤ (x : Int) + i ∧ 0 ≤ (y : Int) + j ∧
        Reach f ((x : Int) + i).toNat ((y : Int) + j).toNat p q := by
  intro l
  induction l with
  | nil =>
    intro f x y p q _ _ _ ho
    exact Or.inl ho
  | cons pr rest ih =>
    obtain ⟨i0, j0⟩ := pr
    intro f x y p q hWF hp hq ho
    simp only [openListF] at ho
    by_cases hg : 0 ≤ (x : Int) + i0 ∧ 0 ≤ (y : Int) + j0 ∧
        ((x : Int) + i0).toNat < f.width ∧ ((y : Int) + j0).toNat < f.height
    · rw [if_pos hg] at ho
      have hO := hrec_opens f ((x : Int) + i0).toNat ((y : Int) + j0).toNat
      have hres := ih (rec f _ _) x y p q (Opens_WF hO hWF)
        (by rw [hO.1]; exact hp) (by rw [hO.2.1]; exact hq) ho
      rcases hres with hres | ⟨i, j, hmem, hnx, hny, hreach⟩
      · rcases hrec_sound f _ _ p q hWF hp hq hres with hres' | hres'
        · exact Or.inl hres'
        · exact Or.inr ⟨i0, j0, by simp, hg.1, hg.2.1, hres'⟩
      · exact Or.inr ⟨i, j, List.mem_cons_of_mem _ hmem, hnx, hny,
          Reach_anti hO _ _ hreach⟩
    · rw [if_neg hg] at ho
      rcases ih f x y p q hWF hp hq ho with hres | ⟨i, j, hmem, hnx, hny, hreach⟩
      · exact Or.inl hres
      · exact Or.inr ⟨i, j, List.mem_cons_of_mem _ hmem, hnx, hny, hreach⟩

theorem sound_fun : ∀ (fuel : Nat) (f : Field) (x y p q : Nat), f.WF →
    p < f.width → q < f.height →
    ((openFuel fuel f x y).get p q).status = Status.OPENED →
    (f.get p q).status = Status.OPENED ∨ Reach f x y p q := by
  intro fuel
  induction fuel with
  | zero =>
    intro f x y p q _ _ _ ho
    exact Or.inl ho
  | succ fuel ih =>
    intro f x y p q hWF hp hq ho
    rw [openFuel] at ho
    by_cases h1 : f.width ≤ x ∨ f.height ≤ y
    · rw [if_pos h1] at ho
      exact Or.inl ho
    · rw [if_neg h1] at ho
      have hx : x < f.width := by omega
      have hy : y < f.height := by omega
      by_cases h2 : (f.get x y).status = Status.OPENED
      · rw [if_pos h2] at ho
        exact Or.inl ho
      · rw [if_neg h2] at ho
        by_cases hpq : p = x ∧ q = y
        · obtain ⟨rfl, rfl⟩ := hpq
          exact Or.inr (Reach.base ⟨hx, hy⟩)
        · have hget2 : (f.setCell x y { f.get x y with status := Status.OPENED }).get p q =
              f.get p q := get_setCell_ne _ hx hp hpq
          by_cases h3 : (f.get x y).mines_near ≠ 0
          · simp only [if_pos h3] at ho
            rw [hget2] at ho
            exact Or.inl ho
          · simp only [if_neg h3] at ho
            have hz : (f.get x y).mines_near = 0 := by omega
            set f2 := f.setCell x y { f.get x y with status := Status.OPENED } with hf2
            have hWF2 : f2.WF := setCell_WF _ _ _ hWF
            have hres := sound_list (openFuel fuel) (openFuel_opens fuel)
              (fun g a b p' q' => ih g a b p' q') boxOffsets f2 x y p q hWF2 hp hq ho
            rcases hres with hres | ⟨i, j, hmem, hnx, hny, hreach⟩
            · rw [hget2] at hres
              exact Or.inl hres
            · have hr2 : Reach f ((x : Int) + i).toNat ((y : Int) + j).toNat p q :=
                Reach_anti (Opens_setOpen f x y) _ _ hreach
              refine Or.inr (Reach_prepend ⟨hx, hy⟩ hz h2 ?_ hr2)
              exact offset_adj hmem hnx hny

/-! ### Fuel accounting -/

theorem countP_set_decr {α : Type} (p : α → Bool) :
    ∀ (l : List α) (i : Nat) (a d : α), i < l.length →
    p (l.getD i d) = true → p a = false →
    (l.set i a).countP p + 1 = l.countP p := by
  intro l
  induction l with
  | nil => intro i a d hi; simp at hi
  | cons c rest ih =>
    intro i a d hi hold hnew
    cases i with
    | zero =>
      simp only [List.getD_cons_zero] at hold
      simp only [List.set]
      rw [List.countP_cons, List.countP_cons, hold, hnew]
      simp
    | succ n =>
      simp only [List.getD_cons_succ] at hold
      simp only [List.set]
      rw [List.countP_cons, List.countP_cons]
      have := ih n a d (by simpa using hi) hold hnew
      omega

theorem forall2_countP_le {α : Type} {R : α → α → Prop} {p : α → Bool}
    (hR : ∀ a b, R a b → p b = true → p a = true) :
    ∀ {l l' : List α}, List.Forall₂ R l l' → l'.countP p ≤ l.countP p := by
  intro l l' h
  induction h with
  | nil => exact Nat.le_refl _
  | cons hc hrest ih =>
    rename_i a b l1 l2
    rw [List.countP_cons, List.countP_cons]
    by_cases hb : p b = true
    · rw [hb, hR _ _ hc hb]
      omega
    · have hbf : p b = false := by simpa using hb
      rw [hbf]
      by_cases hca : p a = true <;> simp [hca] <;> omega

theorem Opens_countNotOpened {f f' : Field} (h : Opens f f') :
    countNotOpened f'.field ≤ countNotOpened f.field := by
  unfold countNotOpened
  refine forall2_countP_le (fun a b hab hb => ?_) h.2.2
  have hbne : b.status ≠ Status.OPENED := by simpa using hb
  have hba : b = a := cellOpens_notOpened hab hbne
  rw [← hba]
  exact hb

theorem setOpen_countNotOpened {f : Field} {x y : Nat} (hWF : f.WF)
    (hx : x < f.width) (hy : y < f.height)
    (hno : (f.get x y).status ≠ Status.OPENED) :
    countNotOpened (f.setCell x y { f.get x y with status := Status.OPENED }).field + 1 =
      countNotOpened f.field := by
  unfold countNotOpened Field.setCell
  refine countP_set_decr _ _ _ _ zeroCell (inB_idx_lt hWF hx hy) ?_ (by simp)
  exact decide_eq_true hno

theorem getD_mem {α : Type} : ∀ (l : List α) (i : Nat) (d : α), i < l.length →
    l.getD i d ∈ l := by
  intro l
  induction l with
  | nil => intro i d hi; simp at hi
  | cons c rest ih =>
    intro i d hi
    cases i with
    | zero => simp [List.getD_cons_zero]
    | succ n =>
      simp only [List.getD_cons_succ]
      exact List.mem_cons_of_mem _ (ih n d (by simpa using hi))

theorem countNotOpened_pos {f : Field} {x y : Nat} (hWF : f.WF)
    (hx : x < f.width) (hy : y < f.height)
    (hno : (f.get x y).status ≠ Status.OPENED) :
    1 ≤ countNotOpened f.field := by
  unfold countNotOpened
  refine List.countP_pos.mpr ⟨f.get x y, ?_, decide_eq_true hno⟩
  exact getD_mem _ _ _ (inB_idx_lt hWF hx hy)

/-! ### The fixpoint property: opened zero cells have opened neighbors -/

theorem fix_list (fuel : Nat)
    (hfun : ∀ (f : Field) (x y : Nat), f.WF → countNotOpened f.field + 1 ≤ fuel →
      ∀ p q, p < f.width → q < f.height →
      (f.get p q).mines_near = 0 → (f.get p q).status ≠ Status.OPENED →
      ((openFuel fuel f x y).get p q).status = Status.OPENED →
      ∀ a b, adjB p q a b → a < f.width → b < f.height →
      ((openFuel fuel f x y).get a b).status = Status.OPENED) :
    ∀ (l : List (Int × Int)) (f : Field) (x y : Nat), f.WF →
    countNotOpened f.field + 1 ≤ fuel →
    ∀ p q, p < f.width → q < f.height →
    (f.get p q).mines_near = 0 → (f.get p q).status ≠ Status.OPENED →
    ((openListF (openFuel fuel) f x y l).get p q).status = Status.OPENED →
    ∀ a b, adjB p q a b → a < f.width → b < f.height →
    ((openListF (openFuel fuel) f x y l).get a b).status = Status.OPENED := by
  intro l
  induction l with
  | nil =>
    intro f x y _ _ p q _ _ _ hno ho
    exact absurd ho hno
  | cons pr rest ih =>
    obtain ⟨i0, j0⟩ := pr
    intro f x y hWF hfuel p q hp hq hz hno ho a b hadj ha hb
    simp only [openListF] at ho ⊢
    by_cases hg : 0 ≤ (x : Int) + i0 ∧ 0 ≤ (y : Int) + j0 ∧
        ((x : Int) + i0).toNat < f.width ∧ ((y : Int) + j0).toNat < f.height
    · rw [if_pos hg] at ho ⊢
      set f' := openFuel fuel f ((x : Int) + i0).toNat ((y : Int) + j0).toNat with hf'
      have hO : Opens f f' := openFuel_opens fuel f _ _
      have hWF' : f'.WF := Opens_WF hO hWF
      have hcnt' : countNotOpened f'.field + 1 ≤ fuel :=
        le_trans (by have := Opens_countNotOpened hO; omega) hfuel
      by_cases hstat : (f'.get p q).status = Status.OPENED
      · have hnb := hfun f ((x : Int) + i0).toNat ((y : Int) + j0).toNat hWF hfuel
          p q hp hq hz hno hstat a b hadj ha hb
        exact opened_mono (openListF_opens _ (fun g a' b' => openFuel_opens fuel g a' b')
          rest _ x y) hnb
      · have hz' : (f'.get p q).mines_near = 0 := by
          rw [cellOpens_near (Opens_get hO p q)]
          exact hz
        exact ih f' x y hWF' hcnt' p q (by rw [hO.1]; exact hp) (by rw [hO.2.1]; exact hq)
          hz' hstat ho a b hadj (by rw [hO.1]; exact ha) (by rw [hO.2.1]; exact hb)
    · rw [if_neg hg] at ho ⊢
      exact ih f x y hWF hfuel p q hp hq hz hno ho a b hadj ha hb

theorem fix_fun : ∀ (fuel : Nat) (f : Field) (x y : Nat), f.WF →
    countNotOpened f.field + 1 ≤ fuel →
    ∀ p q, p < f.width → q < f.height →
    (f.get p q).mines_near = 0 → (f.get p q).status ≠ Status.OPENED →
    ((openFuel fuel f x y).get p q).status = Status.OPENED →
    ∀ a b, adjB p q a b → a < f.width → b < f.height →
    ((openFuel fuel f x y).get a b).status = Status.OPENED := by
  intro fuel
  induction fuel with
  | zero =>
    intro f x y _ hfuel
    omega
  | succ fuel ih =>
    intro f x y hWF hfuel p q hp hq hz hno ho a b hadj ha hb
    rw [openFuel] at ho ⊢
    by_cases h1 : f.width ≤ x ∨ f.height ≤ y
    · rw [if_pos h1] at ho
      exact absurd ho hno
    · rw [if_neg h1] at ho ⊢
      have hx : x < f.width := by omega
      have hy : y < f.height := by omega
      by_cases h2 : (f.get x y).status = Status.OPENED
      · rw [if_pos h2] at ho
        exact absurd ho hno
      · rw [if_neg h2] at ho ⊢
        set f2 := f.setCell x y { f.get x y with status := Status.OPENED } with hf2
        have hWF2 : f2.WF := setCell_WF _ _ _ hWF
        have hcnt2 : countNotOpened f2.field + 1 = countNotOpened f.field :=
          setOpen_countNotOpened hWF hx hy h2
        by_cases h3 : (f.get x y).mines_near ≠ 0
        · simp only [if_pos h3] at ho ⊢
          by_cases hpq : p = x ∧ q = y
          · obtain ⟨rfl, rfl⟩ := hpq
            exact absurd hz h3
          · rw [get_setCell_ne _ hx hp hpq] at ho
            exact absurd ho hno
        · simp only [if_neg h3] at ho ⊢
          have hcnt : countNotOpened f2.field + 1 ≤ fuel := by
            have h4 : 1 ≤ countNotOpened f.field := countNotOpened_pos hWF hx hy h2
            omega
          have hone : 1 ≤ fuel := by omega
          by_cases hpq : p = x ∧ q = y
          · obtain ⟨rfl, rfl⟩ := hpq
            obtain ⟨⟨i, j⟩, hmem, hai, hbj⟩ := adj_offset hadj
            have hta : ((p : Int) + i).toNat = a := by omega
            have htb : ((q : Int) + j).toNat = b := by omega
            rw [← hta, ← htb]
            refine openListF_openedAll (openFuel fuel)
              (fun g a' b' => openFuel_opens fuel g a' b')
              (fun g a' b' hWFg ha' hb' => self_open fuel g a' b' hone hWFg ha' hb')
              boxOffsets f2 p q hWF2 i j hmem (by omega) (by omega) ?_ ?_
            · show ((p : Int) + i).toNat < f.width
              omega
            · show ((q : Int) + j).toNat < f.height
              omega
          · have hget2 : f2.get p q = f.get p q := get_setCell_ne _ hx hp hpq
            refine fix_list fuel ih boxOffsets f2 x y hWF2 hcnt p q hp hq ?_ ?_ ho
              a b hadj ha hb
            · rw [hget2]; exact hz
            · rw [hget2]; exact hno

/-- Every reached cell is in bounds. -/
theorem Reach_inB {f : Field} {x0 y0 a b : Nat} (h : Reach f x0 y0 a b) : f.inB a b := by
  induction h with
  | base hin => exact hin
  | step _ _ _ _ hin _ => exact hin

/-- Completeness: with sufficient fuel every reachable cell ends Opened. -/
theorem complete_fun (fuel : Nat) (f : Field) (x y : Nat) (hWF : f.WF)
    (hfuel : countNotOpened f.field + 1 ≤ fuel) :
    ∀ p q, Reach f x y p q →
    ((openFuel fuel f x y).get p q).status = Status.OPENED := by
  intro p q hr
  induction hr with
  | base hin => exact self_open fuel f x y (by omega) hWF hin.1 hin.2
  | step hr hz hno hadj hin ih =>
    rename_i u v a' b'
    have huv := Reach_inB hr
    exact fix_fun fuel f x y hWF hfuel u v huv.1 huv.2 hz hno ih a' b' hadj hin.1 hin.2

/-! ### C3: the flood-fill region -/

/-- C3 counterexample: on a 3-by-1 board where every cell has
mines_near = 0 but the middle cell is already Opened, the cell (2, 0)
belongs to the connected zero-region of (0, 0) — the region the claim
says Open(0,0) must set to Opened — yet Field_open leaves it unopened,
because the recursion stops at the already-Opened middle cell. -/
theorem c3_counterexample :
    SpecReach ⟨3, 1, [zeroCell, ⟨Status.OPENED, false, 0⟩, zeroCell]⟩ 0 0 2 0 ∧
    ((⟨3, 1, [zeroCell, ⟨Status.OPENED, false, 0⟩, zeroCell]⟩ : Field).get 0 0).mines_near = 0 ∧
    ((⟨3, 1, [zeroCell, ⟨Status.OPENED, false, 0⟩, zeroCell]⟩ : Field).get 0 0).status ≠
      Status.OPENED ∧
    ((⟨3, 1, [zeroCell, ⟨Status.OPENED, false, 0⟩, zeroCell]⟩ : Field).get 2 0).mines_near = 0 ∧
    ((Field_open ⟨3, 1, [zeroCell, ⟨Status.OPENED, false, 0⟩, zeroCell]⟩ 0 0).get 2 0).status ≠
      Status.OPENED := by
  refine ⟨?_, by decide, by decide, by decide, by decide⟩
  have h0 : SpecReach ⟨3, 1, [zeroCell, ⟨Status.OPENED, false, 0⟩, zeroCell]⟩ 0 0 0 0 :=
    SpecReach.base (by decide)
  have h1 : SpecReach ⟨3, 1, [zeroCell, ⟨Status.OPENED, false, 0⟩, zeroCell]⟩ 0 0 1 0 :=
    SpecReach.step h0 (by decide) (by decide) (by decide)
  exact SpecReach.step h1 (by decide) (by decide) (by decide)

/-- C3 as amended: for a well-formed field and an in-bounds start cell
with mines_near = 0 that is not already Opened, Field_open sets to Opened
exactly the cells reachable from the start through in-bounds cells that
have mines_near = 0 and are not already Opened (the Reach relation: the
start cell, the zero-region connected to it through not-yet-Opened cells,
and the cells bordering that region), changes the status of no other
cell, and never changes is_mine, mines_near, or the dimensions. -/
theorem c3_flood_fill (f : Field) (x y : Nat) (hWF : f.WF)
    (hx : x < f.width) (hy : y < f.height)
    (hz : (f.get x y).mines_near = 0) (hno : (f.get x y).status ≠ Status.OPENED) :
    Opens f (Field_open f x y) ∧
    (∀ p q, p < f.width → q < f.height →
      (((Field_open f x y).get p q).status = Status.OPENED ↔
        (f.get p q).status = Status.OPENED ∨ Reach f x y p q)) ∧
    (∀ p q, p < f.width → q < f.height →
      ¬((f.get p q).status = Status.OPENED ∨ Reach f x y p q) →
      (Field_open f x y).get p q = f.get p q) := by
  have hfuel : countNotOpened f.field + 1 ≤ f.width * f.height + 1 := by
    have h1 : countNotOpened f.field ≤ f.field.length := List.countP_le_length _
    have h2 : f.field.length = f.width * f.height := hWF
    omega
  have hO : Opens f (Field_open f x y) := openFuel_opens _ f x y
  have hiff : ∀ p q, p < f.width → q < f.height →
      (((Field_open f x y).get p q).status = Status.OPENED ↔
        (f.get p q).status = Status.OPENED ∨ Reach f x y p q) := by
    intro p q hp hq
    constructor
    · intro ho
      exact sound_fun _ f x y p q hWF hp hq ho
    · rintro (ho | hr)
      · exact opened_mono hO ho
      · exact complete_fun _ f x y hWF hfuel p q hr
  refine ⟨hO, hiff, ?_⟩
  intro p q hp hq hnot
  have hres : ((Field_open f x y).get p q).status ≠ Status.OPENED := by
    intro ho
    exact hnot ((hiff p q hp hq).mp ho)
  exact cellOpens_notOpened (Opens_get hO p q) hres

theorem c3_flood_fill_witness :
    (Field.mk0 2 2).WF ∧
    (((Field_open (Field.mk0 2 2) 0 0).get 1 1).status = Status.OPENED ↔
      ((Field.mk0 2 2).get 1 1).status = Status.OPENED ∨
        Reach (Field.mk0 2 2) 0 0 1 1) :=
  ⟨by decide,
    (c3_flood_fill (Field.mk0 2 2) 0 0 (by decide) (by decide) (by decide)
      (by decide) (by decide)).2.1 1 1 (by decide) (by decide)⟩

end Minesweeper
